import Mathlib

/-!
Verification of tokenizador-cli: the lexer of `src/src/tokenizer.cpp` and the
flag resolver of `src/src/process_flags.cpp`.

A shallow embedding of the free-function lexer (`tokenize` and its static
helpers) and of the resolver (`getFlagArgument`, `getFlagSetup`,
`FlagSet::setFlag`), and theorems about them.  The conventions below are those
of the lexer; those of the resolver stand at the head of its definitions.

Modelling conventions.

* A `std::string` is the list of its `char` elements; a `char` of value `b`
  is the `Char` of code point `b`.  `std::isalnum` is taken in the "C" locale,
  where it holds exactly of the ASCII letters and digits.
* A `std::string::iterator` into the line is modelled by the range it still
  has in front of it, `[it, line.end())`, a suffix of the line: `it == end`
  is `it = []`, `*it` is the head, `it++` is the tail, and
  `std::distance(line_start, it)` is the difference of the two lengths.
* `col` returns an `int`: the distance, a `std::ptrdiff_t`, is converted to
  32 bits (`toInt`), so that the column of a token or of a message is the
  offset of the cursor only on lines shorter than `2^31` characters; the
  theorems that state the value of a column say so.
* A message is the text that the source streams into `ErrorMsg`.  A character
  of the line that is streamed into a message is copied as one byte, which
  the text shows as the character itself when it is ASCII.
* `throw std::runtime_error(msg)` is `Except.error msg`.
* The main `while` loop runs on fuel; `tokenize` gives it `2 * |line| + 2`
  iterations, which is always enough (`mainLoop_total`, `tokenize_ne_none`).
-/

namespace TokenizerCli

/-! ## Data model (`tokenizer.hpp`) -/

/-- The `enum class OpTokenType` of `tokenizer.hpp`. -/
inductive OpTokenType where
  | INITIAL
  | UNKNOWN
  | IDENTIFIER
  | FLAG
  | STRING
  deriving DecidableEq, Repr

/-- The `struct Token` of `tokenizer.hpp`: content, type and column. -/
structure Token where
  content : List Char
  type : OpTokenType
  col : Int
  deriving DecidableEq, Repr

/-! ## Error messages (`ErrorMsg.hpp`) -/

namespace ErrorMsg

/-- The marker `errFlag` every message starts with. -/
def errFlag : String := "<# "

/-- The method `ErrorMsg::get`, applied to what was streamed into the object:
`errFlag + stream.str() + '\n'`. -/
def get (stream : String) : String := errFlag ++ stream ++ "\n"

end ErrorMsg

/-! ## Static helpers of `tokenizer.cpp` -/

/-- The helper `bisalnum`: `std::isalnum` in the "C" locale. -/
def bisalnum (c : Char) : Bool := c.isAlphanum

/-- The conversion of a distance (`std::ptrdiff_t`, never negative here) to
`int`, as `col` does when it returns: the value modulo `2^32` that lies between
`-2^31` and `2^31 - 1`. -/
def toInt (d : Nat) : Int := ((d + 2147483648) % 4294967296 : Nat) - 2147483648

/-- The helper `col`: `std::distance(line_start, it)`, returned as an `int`. -/
def col (line_start it : List Char) : Int := toInt (line_start.length - it.length)

/-- The character set `" \t\n\r\f\v"` that `trim` strips. -/
def trimSet : List Char := [' ', '\t', '\n', '\r', '\x0c', '\x0b']

/-- The call `text.find_first_not_of(set)`: the least index whose character is
not in `set`, `none` standing for `npos`. -/
def find_first_not_of : List Char → List Char → Option Nat
  | [], _ => none
  | c :: cs, set =>
    if set.contains c then (find_first_not_of cs set).map (· + 1) else some 0

/-- The call `text.find_last_not_of(set)`: the greatest index whose character
is not in `set`, `none` standing for `npos`. -/
def find_last_not_of : List Char → List Char → Option Nat
  | [], _ => none
  | c :: cs, set =>
    match find_last_not_of cs set with
    | some i => some (i + 1)
    | none => if set.contains c then none else some 0

/-- The call `text.substr(pos, len)`. -/
def substr (text : List Char) (pos len : Nat) : List Char := (text.drop pos).take len

/-- The helper `trim`.  The C++ function takes `text` by reference, overwrites
it and returns a reference to it: the value returned here is also the new
value of the caller's variable. -/
def trim (text : List Char) : List Char :=
  match find_first_not_of text trimSet, find_last_not_of text trimSet with
  | some start, some stop => substr text start (stop - start + 1)
  | _, _ => []

/-- The loop `while(it != end && *it == ' ') it++;` of `processInitialCase`. -/
def skipSpaces : List Char → List Char
  | [] => []
  | c :: r => if c = ' ' then skipSpaces r else c :: r

/-- The function `processInitialCase`: the state found and the new position
of the iterator. -/
def processInitialCase (it : List Char) : OpTokenType × List Char :=
  match skipSpaces it with
  | [] => (.INITIAL, [])
  | c :: r =>
    if bisalnum c then (.IDENTIFIER, c :: r)
    else if c = '-' then (.FLAG, c :: r)
    else if c = '"' then (.STRING, r)
    else (.UNKNOWN, c :: r)

/-- The loop `while (it != l_end && *it == '-')` of `processFlagCase`, on the
iterator, the buffer and `dash_count`. -/
def dashLoop : List Char → List Char → Nat → List Char × List Char × Nat
  | [], buffer, dash_count => ([], buffer, dash_count)
  | c :: r, buffer, dash_count =>
    if c = '-' then dashLoop r (buffer ++ ['-']) (dash_count + 1)
    else (c :: r, buffer, dash_count)

/-- The loop `while (it != end && bisalnum(*it)) { buffer += *it; it++; }`, used
by the `IDENTIFIER` case of `tokenize` and by `processFlagCase`. -/
def alnumLoop : List Char → List Char → List Char × List Char
  | [], buffer => ([], buffer)
  | c :: r, buffer =>
    if bisalnum c then alnumLoop r (buffer ++ [c]) else (c :: r, buffer)

/-- The message of the first `throw` of `processFlagCase` (too many dashes). -/
def invalidFlagMsg (column : Int) (buffer : List Char) : String :=
  ErrorMsg.get ("(Coluna " ++ toString column ++ ") Flag `" ++ String.mk buffer
    ++ "` inválida.\n")

/-- The message of the second `throw` of `processFlagCase` (dashes only). -/
def dashesOnlyMsg (column : Int) (buffer : List Char) : String :=
  ErrorMsg.get ("(Coluna " ++ toString column ++ ") Flag `" ++ String.mk buffer
    ++ "` inválida (apenas hífens, sem identificador).\n")

/-- The function `processFlagCase`: the new iterator and the flag, or the
error thrown. -/
def processFlagCase (it l_begin : List Char) : Except String (List Char × List Char) :=
  let start := it
  let max_dash_count := 2
  match dashLoop it [] 0 with
  | (it, buffer, dash_count) =>
    if dash_count > max_dash_count then
      .error (invalidFlagMsg (col l_begin start) buffer)
    else
      match alnumLoop it buffer with
      | (it, buffer) =>
        if buffer.length = dash_count then
          .error (dashesOnlyMsg (col l_begin start) buffer)
        else .ok (it, buffer)

/-- The loop `while(it != line_end && *it != '\"')` of `processStringCase`. -/
def stringLoop : List Char → List Char → List Char × List Char
  | [], buffer => ([], buffer)
  | c :: r, buffer =>
    if c ≠ '"' then stringLoop r (buffer ++ [c]) else (c :: r, buffer)

/-- The message of the first `throw` of `processStringCase` (no closing quote). -/
def unterminatedMsg (column : Int) : String :=
  ErrorMsg.get ("(Coluna " ++ toString column
    ++ ") Caractere `\"` de fechamento não encontrado (EOF).\n")

/-- The message of the second `throw` of `processStringCase` (empty string). -/
def emptyStringMsg (column : Int) : String :=
  ErrorMsg.get ("(Coluna " ++ toString column ++ ") Strings vazias não são aceitas.")

/-- The function `processStringCase`: the new iterator and the string, or the
error thrown.  `trim(buffer)` overwrites `buffer`, so the buffer returned is
the trimmed one. -/
def processStringCase (line it : List Char) : Except String (List Char × List Char) :=
  let start := it
  match stringLoop it [] with
  | (it, buffer) =>
    if it = [] then .error (unterminatedMsg (col line start))
    else
      let buffer := trim buffer
      let trimmed_buffer := buffer
      if trimmed_buffer = [] then .error (emptyStringMsg (col line start))
      else .ok (it.tail, buffer)

/-! ## The state machine of `tokenize` -/

/-- The local variables of `tokenize` that the main loop changes. -/
structure LoopState where
  tokens : List Token
  state : OpTokenType
  buffer : List Char
  char_iterator : List Char
  deriving DecidableEq, Repr

/-- The message thrown in the `INITIAL` case on an unrecognised character.  The
character is streamed as one byte: the text is the message of the code for an
ASCII character (a byte above 127 is not a character of its own in UTF-8). -/
def unknownCharMsg (column : Int) (c : Char) : String :=
  ErrorMsg.get ("(Coluna " ++ toString column ++ ") Caractere `" ++ String.singleton c
    ++ "` não identificado.\n")

/-- The message thrown after the loop when the buffer is not empty. -/
def bufferNotEmptyMsg (column : Int) (buffer : List Char) : String :=
  ErrorMsg.get ("(Coluna " ++ toString column
    ++ ") Buffer não vazio ao final do tokenizador: " ++ String.mk buffer ++ "\n")

/-- One iteration of the main loop: the `switch(state)` of `tokenize`.  The
`switch` has no case for `UNKNOWN`, which leaves everything as it is. -/
def loopBody (line : List Char) (s : LoopState) : Except String LoopState :=
  match s.state with
  | .INITIAL =>
    match processInitialCase s.char_iterator with
    | (state, it) =>
      if state = .UNKNOWN then
        .error (unknownCharMsg (col line it) (it.headD '\x00'))
      else .ok { s with state := state, char_iterator := it }
  | .IDENTIFIER =>
    match alnumLoop s.char_iterator s.buffer with
    | (it, buffer) =>
      .ok { tokens := s.tokens ++ [⟨buffer, s.state, col line it⟩],
            state := .INITIAL, buffer := [], char_iterator := it }
  | .FLAG =>
    match processFlagCase s.char_iterator line with
    | .error e => .error e
    | .ok (it, buffer) =>
      .ok { tokens := s.tokens ++ [⟨buffer, s.state, col line it⟩],
            state := .INITIAL, buffer := [], char_iterator := it }
  | .STRING =>
    match processStringCase line s.char_iterator with
    | .error e => .error e
    | .ok (it, buffer) =>
      .ok { tokens := s.tokens ++ [⟨buffer, s.state, col line it⟩],
            state := .INITIAL, buffer := [], char_iterator := it }
  | .UNKNOWN => .ok s

/-- The loop `while(char_iterator != line_end)` of `tokenize`, on fuel: `none`
when the fuel runs out, otherwise the error thrown or the state in which the
loop condition failed. -/
def mainLoop (line : List Char) : Nat → LoopState → Option (Except String LoopState)
  | 0, _ => none
  | fuel + 1, s =>
    if s.char_iterator = [] then some (.ok s)
    else
      match loopBody line s with
      | .error e => some (.error e)
      | .ok s' => mainLoop line fuel s'

/-- The local variables of `tokenize` when the loop is entered. -/
def initialState (line : List Char) : LoopState :=
  { tokens := [], state := .INITIAL, buffer := [], char_iterator := line }

/-- The function `tokenize`: the tokens returned or the message of the
exception thrown (`none` would mean that the loop was still running after
`2 * |line| + 2` iterations). -/
def tokenize (line : List Char) : Option (Except String (List Token)) :=
  match mainLoop line (2 * line.length + 2) (initialState line) with
  | none => none
  | some (.error e) => some (.error e)
  | some (.ok s) =>
    if s.buffer ≠ [] then
      some (.error (bufferNotEmptyMsg (col line s.char_iterator) s.buffer))
    else some (.ok s.tokens)

/-! ## Predicates used by the theorems -/

/-- The test `*it == ' '` of `processInitialCase`. -/
def isSpace (c : Char) : Bool := c = ' '

/-- The test `*it == '-'` of `processFlagCase`. -/
def isDash (c : Char) : Bool := c = '-'

/-- The test `*it != '\"'` of `processStringCase`. -/
def notQuote (c : Char) : Bool := c ≠ '"'

/-- Membership in the character set that `trim` strips. -/
def isTrimChar (c : Char) : Bool := trimSet.contains c

/-- The states in which the condition of the main loop is evaluated: the
iterator is inside the line, the buffer is empty, and a token state has the
character that selected it under (or, for a string, just before) the cursor. -/
structure Reachable (line : List Char) (s : LoopState) : Prop where
  inLine : s.char_iterator <:+ line
  bufferEmpty : s.buffer = []
  notUnknown : s.state ≠ .UNKNOWN
  atAlnum : s.state = .IDENTIFIER → ∃ c r, s.char_iterator = c :: r ∧ bisalnum c = true
  atDash : s.state = .FLAG → ∃ r, s.char_iterator = '-' :: r
  afterQuote : s.state = .STRING → (['"'] ++ s.char_iterator) <:+ line

/-- The quantity that every iteration of the main loop decreases. -/
def loopMeasure (s : LoopState) : Nat :=
  2 * s.char_iterator.length + (if s.state = .INITIAL then 1 else 0)

/-- The shape of a token, by type: an identifier is a non-empty alphanumeric
word, a flag is one or two dashes and a non-empty alphanumeric word, a string
has no quote and is not blank; no token has type `INITIAL` or `UNKNOWN`. -/
def Token.Shaped (t : Token) : Prop :=
  match t.type with
  | .IDENTIFIER => t.content ≠ [] ∧ ∀ c ∈ t.content, bisalnum c = true
  | .FLAG => ∃ k a, (k = 1 ∨ k = 2) ∧ a ≠ [] ∧ (∀ c ∈ a, bisalnum c = true) ∧
      t.content = List.replicate k '-' ++ a
  | .STRING => '"' ∉ t.content ∧ trim t.content ≠ []
  | .INITIAL => False
  | .UNKNOWN => False

/-- The place of a token in the line: an identifier or a flag is a segment of
the line that ends right before an offset, a string is the trimmed text
between two quotes, the second of which is right before an offset; `col` is
that offset, as an `int`. -/
def Token.Placed (line : List Char) (t : Token) : Prop :=
  match t.type with
  | .STRING => ∃ pre body post, line = pre ++ '"' :: (body ++ '"' :: post) ∧ '"' ∉ body ∧
      t.content = trim body ∧ t.col = toInt (pre.length + body.length + 2)
  | _ => ∃ pre post, line = pre ++ (t.content ++ post) ∧
      t.col = toInt (pre.length + t.content.length)

/-- A lexical unit of a well-formed line: an identifier, a flag with its number
of dashes, or a quoted string with the text between its quotes. -/
inductive LexUnit where
  | identifier (word : List Char)
  | flag (dashes : Nat) (word : List Char)
  | quoted (s : List Char)

/-- Well-formed units: an identifier is one or more alphanumerics; a flag is
one or two dashes followed by one or more alphanumerics; a quoted string is
not empty, has no quote in it and neither starts nor ends with a character of
the trim set. -/
def LexUnit.WellFormed : LexUnit → Prop
  | .identifier word => word ≠ [] ∧ ∀ c ∈ word, bisalnum c = true
  | .flag dashes word => (dashes = 1 ∨ dashes = 2) ∧ word ≠ [] ∧ ∀ c ∈ word, bisalnum c = true
  | .quoted s => s ≠ [] ∧ '"' ∉ s ∧ (∀ c, s.head? = some c → isTrimChar c = false) ∧
      (∀ c, s.getLast? = some c → isTrimChar c = false)

/-- The text of a unit as it stands in the line. -/
def LexUnit.text : LexUnit → List Char
  | .identifier word => word
  | .flag dashes word => List.replicate dashes '-' ++ word
  | .quoted s => '"' :: (s ++ ['"'])

/-- The token type that matches a unit. -/
def LexUnit.type : LexUnit → OpTokenType
  | .identifier _ => .IDENTIFIER
  | .flag _ _ => .FLAG
  | .quoted _ => .STRING

/-- The token content that matches a unit: its text, without the quotes for a
quoted string. -/
def LexUnit.content : LexUnit → List Char
  | .identifier word => word
  | .flag dashes word => List.replicate dashes '-' ++ word
  | .quoted s => s

/-- The text of a line that reaches the tokens, in the words of the spec:
outside quotes the spaces and the quote delimiters are dropped and every other
character is kept; the text between a pair of quotes is passed through
`quoted`, the identity when every character between quotes is kept.  The
second argument is the text read since the opening quote, `none` outside
quotes. -/
def lineContent (quoted : List Char → List Char) : Option (List Char) → List Char → List Char
  | none, [] => []
  | some body, [] => quoted body
  | none, c :: r =>
    if c = '"' then lineContent quoted (some []) r
    else if c = ' ' then lineContent quoted none r
    else c :: lineContent quoted none r
  | some body, c :: r =>
    if c = '"' then quoted body ++ lineContent quoted none r
    else lineContent quoted (some (body ++ [c])) r

/-- The states of the local variables of `tokenize line` when the condition of
its main loop is evaluated: the state before the first iteration, and the
state left by an iteration that ran and did not throw. -/
inductive InRun (line : List Char) : LoopState → Prop where
  | start : InRun line (initialState line)
  | next (s s' : LoopState) : InRun line s → s.char_iterator ≠ [] →
      loopBody line s = .ok s' → InRun line s'

/-! ## The flag resolver (`flag-struct.hpp`, `FlagSet.ipp`, `process_flags.cpp`)

Modelling conventions.

* A `std::vector<Token>` is the list of its elements, `tokens`, followed in
  memory by the slots of its storage that lie behind its end, `stale`.  The
  vector is never reallocated in `getFlagSetup`, so `tokens ++ stale` is at any
  time what stands between `tokens.begin()` and the `end` that the function
  caches when it starts, and a `std::vector<Token>::iterator` is an index into
  it.
* `tokens.erase(token_it)` moves every later element one slot down (by move
  assignment), destroys the last element and leaves the storage where it is;
  the indices held in `token_it` and in the cached `end` keep their values.
  Reading the slot vacated is undefined behaviour by the letter of the
  standard; the model gives it what the compiled code reads there on the
  usual implementations.  The slot keeps the `type` and the `col` of the
  element that was last.  Its `content` is the empty string that a move leaves
  behind, or, when the element erased was itself the last one, the characters
  it had: a short string, as the words of a command line are, is stored inside
  its object, and its destructor does not wipe it.
* Reading outside the storage, and erasing through an iterator that is not in
  the vector, are undefined behaviour of which nothing is assumed: the run
  ends with `Abort.undefined`.
* A `std::unordered_map` is the list of its key/value pairs; a
  `std::unordered_set<std::string>` is the list of its elements.
* The enumerations `Flag_Config_Name` and `Flag_Config_Value` are type
  parameters `N` and `V`.
* `getFlagSetup` builds its rule table inside its body, under a comment that
  says the table is an example and must become a parameter: the table is a
  parameter here, and `exampleRules` is the table of the source.
* The `while` loop of `getFlagSetup` runs on fuel, given by the caller: `none`
  means that the loop is still running when the fuel is spent.
-/

/-- The type `flag_arg = std::variant<std::string, bool>`. -/
inductive flag_arg where
  | string (s : List Char)
  | bool (b : Bool)
  deriving DecidableEq, Repr

/-- The `struct Flag` of `flag-struct.hpp`. -/
structure Flag (V : Type) where
  value : V
  arg : flag_arg
  deriving DecidableEq, Repr

/-- The `struct FlagRule` of `flag-struct.hpp`. -/
structure FlagRule (N V : Type) where
  group : List (List Char)
  config_name : N
  value : V
  needs_argument : Option Bool

/-- The constructor of `FlagRule`; the source gives `needs_arg` the default
`false`, and stores it in `needs_argument`, which therefore holds a value. -/
def FlagRule.new {N V : Type} (flag_name_list : List (List Char)) (flag_config_name : N)
    (flag_config_value : V) (needs_arg : Bool) : FlagRule N V :=
  { group := flag_name_list, config_name := flag_config_name, value := flag_config_value,
    needs_argument := some needs_arg }

/-- How a run can end without returning: an exception with its message, or
undefined behaviour. -/
inductive Abort where
  | thrown (what : String)
  | undefined
  deriving DecidableEq, Repr

/-- The class `FlagSet`: its private member `map`. -/
structure FlagSet (N V : Type) where
  map : List (N × Flag V)

/-- The message thrown by `FlagSet::setFlag`. -/
def multipleFlagsMsg : String :=
  "<# Múltiplas flags de definição do modo de escrita/reescrita da entrada.\n"

/-- The method `FlagSet::setFlag` of `FlagSet.ipp`.  Its body names the key
`config_name`, as the declaration in the class does, while the definition
calls the parameter `name`: the key is the parameter. -/
def FlagSet.setFlag {N V : Type} [DecidableEq N] (self : FlagSet N V) (flag : Flag V)
    (name : N) : Except Abort (FlagSet N V) :=
  if (self.map.lookup name).isSome then .error (.thrown multipleFlagsMsg)
  else .ok { map := self.map ++ [(name, flag)] }

/-- The method `FlagSet::retrieve`. -/
def FlagSet.retrieve {N V : Type} (self : FlagSet N V) : List (N × Flag V) := self.map

/-- Reading through an iterator of the token vector: `*it`, `it->type`,
`it->content`.  The list is the storage that the iterator points into, the
elements of the vector followed by the slots vacated behind its end. -/
def deref (tokens : List Token) (it : Nat) : Except Abort Token :=
  match tokens[it]? with
  | some t => .ok t
  | none => .error .undefined

/-- The test `next_it != end && next_it->type == OpTokenType::STRING` of
`getFlagArgument`. -/
def nextIsString (tokens : List Token) (next_it end_it : Nat) : Except Abort Bool :=
  if next_it ≠ end_it then
    match deref tokens next_it with
    | .error e => .error e
    | .ok t => .ok (decide (t.type = .STRING))
  else .ok false

/-- The expression `next_it->content`, as a `flag_arg`. -/
def nextContent (tokens : List Token) (next_it : Nat) : Except Abort flag_arg :=
  match deref tokens next_it with
  | .error e => .error e
  | .ok t => .ok (.string t.content)

/-- The function `getFlagArgument` of `process_flags.cpp`; `tokens` is the
storage that the iterators `it` and `end_it` point into.  The three tests on
`rule.needs_argument` are, in order, `== std::nullopt`, `!` and the plain
conversion to `bool`, which for a `std::optional` all look at whether a value
is present.  The statement `else true;` does nothing, and the function then
reaches its last line, `return "";`.  That line builds the `std::string`
alternative of the variant, as the converting constructor of C++20 does
(P0608R3, which current standard libraries apply to C++17 as well); under the
rule of C++17 as first published a string literal would select `bool`. -/
def getFlagArgument {N V : Type} (rule : FlagRule N V) (tokens : List Token)
    (it end_it : Nat) : Except Abort flag_arg :=
  let next_it := if it + 1 ≠ end_it then it + 1 else it
  if rule.needs_argument = none then
    match nextIsString tokens next_it end_it with
    | .error e => .error e
    | .ok true => nextContent tokens next_it
    | .ok false => .ok (.string [])
  else if rule.needs_argument.isSome = false then .ok (.string [])
  else if rule.needs_argument.isSome = true then
    match nextIsString tokens next_it end_it with
    | .error e => .error e
    | .ok true => nextContent tokens next_it
    | .ok false => .ok (.string [])
  else .ok (.string [])

/-- The variables of `getFlagSetup` that its loops change: the vector
`tokens` (passed by reference), the iterator `token_it` and the set, and the
slots of the storage behind the end of the vector, none at the start. -/
structure SetupState (N V : Type) where
  tokens : List Token
  token_it : Nat
  set : FlagSet N V
  stale : List Token := []

/-- The slot that `tokens.erase(it)` vacates, `t` being the element erased: `t`
itself when it was the last element, otherwise the last element after its
content was moved out. -/
def vacated (tokens : List Token) (it : Nat) (t : Token) : Token :=
  if it + 1 = tokens.length then t else { tokens.getLastD t with content := [] }

/-- The call `tokens.erase(token_it)`. -/
def erase {N V : Type} (s : SetupState N V) : Except Abort (SetupState N V) :=
  match s.tokens[s.token_it]? with
  | some t =>
    .ok { s with tokens := s.tokens.eraseIdx s.token_it,
                 stale := vacated s.tokens s.token_it t :: s.stale }
  | none => .error .undefined

/-- The loop `for(const FlagRule& rule : rules)` of `getFlagSetup`.  It has no
`break`: after a match it goes on with the next rules, on what is now at
`token_it`. -/
def rulesLoop {N V : Type} [DecidableEq N] (end_it : Nat) :
    List (FlagRule N V) → SetupState N V → Except Abort (SetupState N V)
  | [], s => .ok s
  | rule :: rest, s =>
    match deref (s.tokens ++ s.stale) s.token_it with
    | .error e => .error e
    | .ok t =>
      if t.content ∈ rule.group then
        match getFlagArgument rule (s.tokens ++ s.stale) s.token_it end_it with
        | .error e => .error e
        | .ok flag_argument =>
          match s.set.setFlag { value := rule.value, arg := flag_argument } rule.config_name with
          | .error e => .error e
          | .ok set =>
            match erase { s with set := set } with
            | .error e => .error e
            | .ok s' => rulesLoop end_it rest s'
      else rulesLoop end_it rest s

/-- One iteration of the loop `while(token_it != end)` of `getFlagSetup`. -/
def setupBody {N V : Type} [DecidableEq N] (rules : List (FlagRule N V)) (end_it : Nat)
    (s : SetupState N V) : Except Abort (SetupState N V) :=
  match deref (s.tokens ++ s.stale) s.token_it with
  | .error e => .error e
  | .ok t =>
    if t.type ≠ .FLAG then .ok { s with token_it := s.token_it + 1 }
    else rulesLoop end_it rules s

/-- The loop `while(token_it != end)` of `getFlagSetup`, on fuel. -/
def setupLoop {N V : Type} [DecidableEq N] (rules : List (FlagRule N V)) (end_it : Nat) :
    Nat → SetupState N V → Option (Except Abort (SetupState N V))
  | 0, _ => none
  | fuel + 1, s =>
    if s.token_it = end_it then some (.ok s)
    else
      match setupBody rules end_it s with
      | .error e => some (.error e)
      | .ok s' => setupLoop rules end_it fuel s'

/-- The function `getFlagSetup` of `process_flags.cpp`: the map returned and
the vector `tokens` as the call leaves it, or how the run was cut short. -/
def getFlagSetup {N V : Type} [DecidableEq N] (rules : List (FlagRule N V))
    (tokens : List Token) (fuel : Nat) : Option (Except Abort (List (N × Flag V) × List Token)) :=
  if tokens.isEmpty then some (.ok ([], tokens))
  else
    match setupLoop rules tokens.length fuel
        { tokens := tokens, token_it := 0, set := { map := [] } } with
    | none => none
    | some (.error e) => some (.error e)
    | some (.ok s) => some (.ok (s.set.retrieve, s.tokens))

/-- The configuration names of the example of the source. -/
inductive ConfigName where
  | SIZE
  deriving DecidableEq, Repr

/-- The configuration values of the example of the source. -/
inductive ConfigValue where
  | SHORT
  | LONG
  deriving DecidableEq, Repr

/-- The rule table written in the body of `getFlagSetup`: `-s`/`--short` sets
`SIZE` to `SHORT` and is built with `needs_arg = true`; `-l`/`--long` sets
`SIZE` to `LONG` and takes the default `needs_arg = false`. -/
def exampleRules : List (FlagRule ConfigName ConfigValue) :=
  [ FlagRule.new [['-', 's'], ['-', '-', 's', 'h', 'o', 'r', 't']] .SIZE .SHORT true,
    FlagRule.new [['-', 'l'], ['-', '-', 'l', 'o', 'n', 'g']] .SIZE .LONG false ]

/-! ## Predicates used by the theorems about the resolver -/

/-- A `FLAG` token for the configuration name `n`: every rule of the table
that has its content in its group sets `n`. -/
def Token.Sets {N V : Type} (rules : List (FlagRule N V)) (n : N) (t : Token) : Prop :=
  t.type = .FLAG ∧ ∀ r ∈ rules, t.content ∈ r.group → r.config_name = n

/-- The states of `getFlagSetup` from which an assignment to `n` is bound to
come twice: the storage still ends at the cached `end`, every flag of the
vector from `token_it` on is known to some rule, and among these tokens there
are two flags for `n`, or one while `n` is already set. -/
def Duplicated {N V : Type} [DecidableEq N] (rules : List (FlagRule N V)) (n : N) (end_it : Nat)
    (s : SetupState N V) : Prop :=
  (s.tokens ++ s.stale).length = end_it ∧
  (∀ t ∈ s.tokens.drop s.token_it, t.type = .FLAG → ∃ r ∈ rules, t.content ∈ r.group) ∧
  ((∃ a b, [a, b].Sublist (s.tokens.drop s.token_it) ∧ a.Sets rules n ∧ b.Sets rules n) ∨
    ((s.set.map.lookup n).isSome = true ∧ ∃ a ∈ s.tokens.drop s.token_it, a.Sets rules n))

/-! ## The inner loops as maximal runs -/

theorem skipSpaces_eq (it : List Char) :
    skipSpaces it = it.dropWhile isSpace := by
  induction it with
  | nil => rfl
  | cons c r ih =>
    by_cases h : c = ' '
    · simp [skipSpaces, isSpace, h, ih]
    · simp [skipSpaces, isSpace, h]

theorem dashLoop_eq (it buffer : List Char) (n : Nat) :
    dashLoop it buffer n =
      (it.dropWhile isDash, buffer ++ it.takeWhile isDash,
        n + (it.takeWhile isDash).length) := by
  induction it generalizing buffer n with
  | nil => simp [dashLoop]
  | cons c r ih =>
    by_cases h : c = '-'
    · simp [dashLoop, isDash, h, ih]; omega
    · simp [dashLoop, isDash, h]

theorem alnumLoop_eq (it buffer : List Char) :
    alnumLoop it buffer = (it.dropWhile bisalnum, buffer ++ it.takeWhile bisalnum) := by
  induction it generalizing buffer with
  | nil => simp [alnumLoop]
  | cons c r ih =>
    by_cases h : bisalnum c = true
    · simp [alnumLoop, h, ih]
    · simp [alnumLoop, h]

theorem stringLoop_eq (it buffer : List Char) :
    stringLoop it buffer =
      (it.dropWhile notQuote, buffer ++ it.takeWhile notQuote) := by
  induction it generalizing buffer with
  | nil => simp [stringLoop]
  | cons c r ih =>
    by_cases h : c = '"'
    · simp [stringLoop, notQuote, h]
    · simp [stringLoop, notQuote, h, ih]

/-! ## Fuel -/

theorem mainLoop_mono (line : List Char) (f k : Nat) (s : LoopState)
    (r : Except String LoopState) (h : mainLoop line f s = some r) :
    mainLoop line (f + k) s = some r := by
  induction f generalizing s with
  | zero => simp [mainLoop] at h
  | succ f ih =>
    have e : f + 1 + k = (f + k) + 1 := by omega
    rw [e]
    simp only [mainLoop] at h ⊢
    split
    · rename_i h0; simpa [h0] using h
    · rename_i h0
      simp only [h0, if_false] at h
      cases hb : loopBody line s with
      | error e => simpa [hb] using h
      | ok s' =>
        simp only [hb] at h ⊢
        exact ih s' h

theorem mainLoop_det (line : List Char) (f g : Nat) (s : LoopState)
    (r r' : Except String LoopState) (h : mainLoop line f s = some r)
    (h' : mainLoop line g s = some r') : r = r' := by
  have h1 := mainLoop_mono line f g s r h
  have h2 := mainLoop_mono line g f s r' h'
  rw [Nat.add_comm] at h2
  rw [h1] at h2
  exact Option.some.inj h2

/-- Unfolding one iteration of the loop. -/
theorem mainLoop_step (line : List Char) (f : Nat) (s s' : LoopState)
    (hne : s.char_iterator ≠ []) (hb : loopBody line s = .ok s') :
    mainLoop line (f + 1) s = mainLoop line f s' := by
  simp [mainLoop, hne, hb]

theorem mainLoop_error (line : List Char) (f : Nat) (s : LoopState) (e : String)
    (hne : s.char_iterator ≠ []) (hb : loopBody line s = .error e) :
    mainLoop line (f + 1) s = some (.error e) := by
  simp [mainLoop, hne, hb]

theorem mainLoop_done (line : List Char) (f : Nat) (s : LoopState)
    (h : s.char_iterator = []) :
    mainLoop line (f + 1) s = some (.ok s) := by
  simp [mainLoop, h]

/-- A property kept by every iteration holds when the loop ends. -/
theorem mainLoop_inv (line : List Char) (P : LoopState → Prop)
    (hstep : ∀ s s', P s → s.char_iterator ≠ [] → loopBody line s = .ok s' → P s')
    (f : Nat) (s s' : LoopState) (hs : P s) (h : mainLoop line f s = some (.ok s')) :
    P s' ∧ s'.char_iterator = [] := by
  induction f generalizing s with
  | zero => simp [mainLoop] at h
  | succ f ih =>
    by_cases h0 : s.char_iterator = []
    · rw [mainLoop_done line f s h0] at h
      cases h
      exact ⟨hs, h0⟩
    · cases hb : loopBody line s with
      | error e => rw [mainLoop_error line f s e h0 hb] at h; cases h
      | ok s1 =>
        rw [mainLoop_step line f s s1 h0 hb] at h
        exact ih s1 (hstep s s1 hs h0 hb) h

/-! ## Closed forms of the sub-scanners -/

theorem processInitialCase_eq (it : List Char) :
    processInitialCase it =
      match it.dropWhile isSpace with
      | [] => (.INITIAL, [])
      | c :: r =>
        if bisalnum c then (.IDENTIFIER, c :: r)
        else if c = '-' then (.FLAG, c :: r)
        else if c = '"' then (.STRING, r)
        else (.UNKNOWN, c :: r) := by
  simp only [processInitialCase, skipSpaces_eq]

theorem processFlagCase_eq (it l_begin : List Char) :
    processFlagCase it l_begin =
      if 2 < (it.takeWhile isDash).length then
        .error (invalidFlagMsg (col l_begin it) (it.takeWhile isDash))
      else if (it.dropWhile isDash).takeWhile bisalnum = [] then
        .error (dashesOnlyMsg (col l_begin it) (it.takeWhile isDash))
      else
        .ok ((it.dropWhile isDash).dropWhile bisalnum,
          it.takeWhile isDash
            ++ (it.dropWhile isDash).takeWhile bisalnum) := by
  simp only [processFlagCase, dashLoop_eq, alnumLoop_eq, List.nil_append, Nat.zero_add,
    gt_iff_lt, List.length_append]
  by_cases h1 : 2 < (it.takeWhile isDash).length
  · simp [h1]
  · simp only [h1, if_false]
    by_cases h2 : (it.dropWhile isDash).takeWhile bisalnum = []
    · simp [h2]
    · have : (List.takeWhile bisalnum (List.dropWhile isDash it)).length ≠ 0 := by
        simpa using h2
      simp [h2, this]

theorem processStringCase_eq (line it : List Char) :
    processStringCase line it =
      if it.dropWhile notQuote = [] then .error (unterminatedMsg (col line it))
      else if trim (it.takeWhile notQuote) = [] then
        .error (emptyStringMsg (col line it))
      else .ok ((it.dropWhile notQuote).tail, trim (it.takeWhile notQuote)) := by
  simp only [processStringCase, stringLoop_eq, List.nil_append]

/-! ## `trim` -/

theorem find_first_not_of_eq (t set : List Char) :
    find_first_not_of t set =
      if t.dropWhile (fun c => set.contains c) = [] then none
      else some (t.takeWhile (fun c => set.contains c)).length := by
  induction t with
  | nil => simp [find_first_not_of]
  | cons c cs ih =>
    by_cases h : set.contains c = true
    · simp only [find_first_not_of, h, if_true, ih, List.dropWhile_cons_of_pos,
        List.takeWhile_cons_of_pos, List.length_cons]
      split <;> simp
    · have h' : ¬ c ∈ set := by simpa using h
      simp [find_first_not_of, h']

theorem find_last_not_of_concat (t set : List Char) (c : Char) :
    find_last_not_of (t ++ [c]) set =
      if set.contains c then find_last_not_of t set else some t.length := by
  induction t with
  | nil => by_cases h : c ∈ set <;> simp [find_last_not_of, h]
  | cons d ds ih =>
    rw [List.cons_append, find_last_not_of, ih]
    by_cases h : c ∈ set
    · simp [h, find_last_not_of]
    · simp [h]

theorem find_last_not_of_eq (t set : List Char) :
    find_last_not_of t set =
      if t.rdropWhile (fun c => set.contains c) = [] then none
      else some ((t.rdropWhile (fun c => set.contains c)).length - 1) := by
  induction t using List.reverseRecOn with
  | nil => simp [find_last_not_of]
  | append_singleton l x ih =>
    rw [find_last_not_of_concat]
    by_cases h : set.contains x = true
    · rw [List.rdropWhile_concat_pos _ _ _ h, if_pos h, ih]
    · rw [List.rdropWhile_concat_neg _ _ _ h, if_neg h]
      simp

theorem rdropWhile_append_of_ne_nil (p : Char → Bool) (a b : List Char)
    (h : b.rdropWhile p ≠ []) : (a ++ b).rdropWhile p = a ++ b.rdropWhile p := by
  induction b using List.reverseRecOn with
  | nil => simp at h
  | append_singleton l x ih =>
    rw [← List.append_assoc]
    by_cases hx : p x = true
    · rw [List.rdropWhile_concat_pos _ _ _ hx, List.rdropWhile_concat_pos _ _ _ hx]
      rw [List.rdropWhile_concat_pos _ _ _ hx] at h
      exact ih h
    · rw [List.rdropWhile_concat_neg _ _ _ hx, List.rdropWhile_concat_neg _ _ _ hx]
      simp

theorem drop_length_takeWhile (p : Char → Bool) (t : List Char) :
    t.drop (t.takeWhile p).length = t.dropWhile p := by
  have h := List.takeWhile_append_dropWhile p t
  calc t.drop (t.takeWhile p).length
      = (t.takeWhile p ++ t.dropWhile p).drop (t.takeWhile p).length := by rw [h]
    _ = t.dropWhile p := List.drop_left' rfl

theorem dropWhile_eq_self_of_head (p : Char → Bool) (l : List Char)
    (h : ∀ c, l.head? = some c → p c = false) : l.dropWhile p = l := by
  cases l with
  | nil => rfl
  | cons a as => simp [h a rfl]

theorem rdropWhile_dropWhile_ne_nil (p : Char → Bool) (t : List Char)
    (h : t.dropWhile p ≠ []) : (t.dropWhile p).rdropWhile p ≠ [] := by
  intro h0
  rw [List.rdropWhile_eq_nil_iff] at h0
  have h1 := List.head_dropWhile_not p t h
  have h2 := h0 _ (List.head_mem h)
  simp [h2] at h1

/-- The value of `trim`: the text without its longest prefix and its longest
suffix of characters of the set. -/
theorem trim_eq (t : List Char) :
    trim t = (t.dropWhile isTrimChar).rdropWhile isTrimChar := by
  have e : (fun c => trimSet.contains c) = isTrimChar := rfl
  simp only [trim, find_first_not_of_eq, find_last_not_of_eq, e]
  by_cases h : t.dropWhile isTrimChar = []
  · simp [h]
  · have hd := rdropWhile_dropWhile_ne_nil isTrimChar t h
    have hsplit : t.rdropWhile isTrimChar
        = t.takeWhile isTrimChar ++ (t.dropWhile isTrimChar).rdropWhile isTrimChar := by
      conv_lhs => rw [← List.takeWhile_append_dropWhile isTrimChar t]
      exact rdropWhile_append_of_ne_nil _ _ _ hd
    have hne : t.rdropWhile isTrimChar ≠ [] := by
      rw [hsplit]; simp [hd]
    simp only [h, hne, if_false, substr, drop_length_takeWhile]
    have hpre : (t.dropWhile isTrimChar).rdropWhile isTrimChar <+: t.dropWhile isTrimChar :=
      List.rdropWhile_prefix _ _
    have hlen : 0 < ((t.dropWhile isTrimChar).rdropWhile isTrimChar).length :=
      List.length_pos.mpr hd
    have hn : (t.rdropWhile isTrimChar).length - 1 - (t.takeWhile isTrimChar).length + 1
        = ((t.dropWhile isTrimChar).rdropWhile isTrimChar).length := by
      rw [hsplit, List.length_append]; omega
    rw [hn]
    exact (List.prefix_iff_eq_take.mp hpre).symm

theorem trim_eq_nil_iff (t : List Char) : trim t = [] ↔ ∀ c ∈ t, isTrimChar c = true := by
  rw [trim_eq]
  constructor
  · intro h
    by_contra hc
    exact rdropWhile_dropWhile_ne_nil isTrimChar t
      (fun h0 => hc (List.dropWhile_eq_nil_iff.mp h0)) h
  · intro h
    rw [List.dropWhile_eq_nil_iff.mpr h]
    simp

theorem mem_of_mem_trim (t : List Char) (c : Char) (h : c ∈ trim t) : c ∈ t := by
  rw [trim_eq] at h
  exact (List.dropWhile_suffix _).subset ((List.rdropWhile_prefix _ _).subset h)

theorem trim_head_not (t : List Char) (c : Char) (h : (trim t).head? = some c) :
    isTrimChar c = false := by
  have hpre : trim t <+: t.dropWhile isTrimChar := by
    rw [trim_eq]; exact List.rdropWhile_prefix _ _
  obtain ⟨s, hs⟩ := hpre
  have h1 := List.head?_dropWhile_not isTrimChar t
  cases ht : trim t with
  | nil => simp [ht] at h
  | cons a as =>
    rw [ht] at h hs
    simp only [List.head?_cons, Option.some.injEq] at h
    rw [← hs] at h1
    simpa [h] using h1

theorem trim_trim (t : List Char) : trim (trim t) = trim t := by
  have h1 : (trim t).dropWhile isTrimChar = trim t :=
    dropWhile_eq_self_of_head _ _ (trim_head_not t)
  conv_lhs => rw [trim_eq, h1]
  rw [trim_eq]
  exact List.rdropWhile_idempotent _ _

/-- A text that neither starts nor ends with a character of the set is left
as it is. -/
theorem trim_eq_self (t : List Char) (hh : ∀ c, t.head? = some c → isTrimChar c = false)
    (hl : ∀ c, t.getLast? = some c → isTrimChar c = false) : trim t = t := by
  have h1 : t.dropWhile isTrimChar = t := dropWhile_eq_self_of_head _ _ hh
  rw [trim_eq, h1, List.rdropWhile_eq_self_iff]
  intro hne
  have := hl (t.getLast hne) (List.getLast?_eq_getLast _ hne)
  simp [this]

/-! ## One iteration of the main loop, state by state -/

theorem loopBody_INITIAL (line : List Char) (s : LoopState) (h : s.state = .INITIAL) :
    loopBody line s =
      match s.char_iterator.dropWhile isSpace with
      | [] => .ok { s with state := .INITIAL, char_iterator := [] }
      | c :: r =>
        if bisalnum c then .ok { s with state := .IDENTIFIER, char_iterator := c :: r }
        else if c = '-' then .ok { s with state := .FLAG, char_iterator := c :: r }
        else if c = '"' then .ok { s with state := .STRING, char_iterator := r }
        else .error (unknownCharMsg (col line (c :: r)) c) := by
  simp only [loopBody, h, processInitialCase_eq]
  cases s.char_iterator.dropWhile isSpace with
  | nil => simp
  | cons c r =>
    by_cases h1 : bisalnum c = true
    · simp [h1]
    · by_cases h2 : c = '-'
      · subst h2; simp [h1]
      · by_cases h3 : c = '"'
        · subst h3; simp [h1]
        · simp [h1, h2, h3]

theorem loopBody_IDENTIFIER (line : List Char) (s : LoopState) (h : s.state = .IDENTIFIER) :
    loopBody line s =
      .ok { tokens := s.tokens ++ [⟨s.buffer ++ s.char_iterator.takeWhile bisalnum,
              .IDENTIFIER, col line (s.char_iterator.dropWhile bisalnum)⟩],
            state := .INITIAL, buffer := [],
            char_iterator := s.char_iterator.dropWhile bisalnum } := by
  simp only [loopBody, h, alnumLoop_eq]

theorem loopBody_FLAG (line : List Char) (s : LoopState) (h : s.state = .FLAG) :
    loopBody line s =
      match processFlagCase s.char_iterator line with
      | .error e => .error e
      | .ok (it, buffer) =>
        .ok { tokens := s.tokens ++ [⟨buffer, .FLAG, col line it⟩],
              state := .INITIAL, buffer := [], char_iterator := it } := by
  simp only [loopBody, h]

theorem loopBody_STRING (line : List Char) (s : LoopState) (h : s.state = .STRING) :
    loopBody line s =
      match processStringCase line s.char_iterator with
      | .error e => .error e
      | .ok (it, buffer) =>
        .ok { tokens := s.tokens ++ [⟨buffer, .STRING, col line it⟩],
              state := .INITIAL, buffer := [], char_iterator := it } := by
  simp only [loopBody, h]

/-- What a successful iteration does, in terms of the characters in front of
the cursor. -/
theorem loopBody_ok_cases (line : List Char) (s s' : LoopState)
    (hb : loopBody line s = .ok s') (hu : s.state ≠ .UNKNOWN) :
    (s.state = .INITIAL ∧ s'.tokens = s.tokens ∧ s'.buffer = s.buffer ∧
      ((s'.state = .INITIAL ∧ s'.char_iterator = [] ∧
          s.char_iterator.dropWhile isSpace = []) ∨
       (s'.state = .IDENTIFIER ∧ ∃ c r, s'.char_iterator = c :: r ∧ bisalnum c = true ∧
          s.char_iterator.dropWhile isSpace = c :: r) ∨
       (s'.state = .FLAG ∧ ∃ r, s'.char_iterator = '-' :: r ∧
          s.char_iterator.dropWhile isSpace = '-' :: r) ∨
       (s'.state = .STRING ∧
          s.char_iterator.dropWhile isSpace = '"' :: s'.char_iterator))) ∨
    (s.state = .IDENTIFIER ∧
      s' = { tokens := s.tokens ++ [⟨s.buffer ++ s.char_iterator.takeWhile bisalnum,
                .IDENTIFIER, col line (s.char_iterator.dropWhile bisalnum)⟩],
             state := .INITIAL, buffer := [],
             char_iterator := s.char_iterator.dropWhile bisalnum }) ∨
    (s.state = .FLAG ∧
      (s.char_iterator.takeWhile isDash).length ≤ 2 ∧
      (s.char_iterator.dropWhile isDash).takeWhile bisalnum ≠ [] ∧
      s' = { tokens := s.tokens ++ [⟨s.char_iterator.takeWhile isDash
                ++ (s.char_iterator.dropWhile isDash).takeWhile bisalnum,
                .FLAG,
                col line ((s.char_iterator.dropWhile isDash).dropWhile bisalnum)⟩],
             state := .INITIAL, buffer := [],
             char_iterator :=
               (s.char_iterator.dropWhile isDash).dropWhile bisalnum }) ∨
    (s.state = .STRING ∧
      s.char_iterator.dropWhile notQuote ≠ [] ∧
      trim (s.char_iterator.takeWhile notQuote) ≠ [] ∧
      s' = { tokens := s.tokens ++ [⟨trim (s.char_iterator.takeWhile notQuote),
                .STRING, col line (s.char_iterator.dropWhile notQuote).tail⟩],
             state := .INITIAL, buffer := [],
             char_iterator := (s.char_iterator.dropWhile notQuote).tail }) := by
  cases hs : s.state with
  | UNKNOWN => exact absurd hs hu
  | INITIAL =>
    left
    rw [loopBody_INITIAL line s hs] at hb
    refine ⟨rfl, ?_⟩
    cases hd : s.char_iterator.dropWhile isSpace with
    | nil =>
      simp only [hd] at hb
      cases hb
      exact ⟨rfl, rfl, Or.inl ⟨rfl, rfl, rfl⟩⟩
    | cons c r =>
      simp only [hd] at hb
      by_cases h1 : bisalnum c = true
      · simp only [h1, if_true] at hb
        cases hb
        exact ⟨rfl, rfl, Or.inr (Or.inl ⟨rfl, c, r, rfl, h1, rfl⟩)⟩
      · by_cases h2 : c = '-'
        · subst h2
          simp only [h1, if_true, if_false] at hb
          cases hb
          exact ⟨rfl, rfl, Or.inr (Or.inr (Or.inl ⟨rfl, r, rfl, rfl⟩))⟩
        · by_cases h3 : c = '"'
          · subst h3
            simp only [h1, h2, if_true, if_false] at hb
            cases hb
            exact ⟨rfl, rfl, Or.inr (Or.inr (Or.inr ⟨rfl, rfl⟩))⟩
          · simp [h1, h2, h3] at hb
  | IDENTIFIER =>
    right; left
    rw [loopBody_IDENTIFIER line s hs] at hb
    exact ⟨rfl, (Except.ok.inj hb).symm⟩
  | FLAG =>
    right; right; left
    rw [loopBody_FLAG line s hs, processFlagCase_eq] at hb
    by_cases h1 : 2 < (s.char_iterator.takeWhile isDash).length
    · simp [h1] at hb
    · by_cases h2 : (s.char_iterator.dropWhile isDash).takeWhile bisalnum = []
      · simp [h1, h2] at hb
      · simp only [h1, h2, if_false] at hb
        exact ⟨rfl, by omega, h2, (Except.ok.inj hb).symm⟩
  | STRING =>
    right; right; right
    rw [loopBody_STRING line s hs, processStringCase_eq] at hb
    by_cases h1 : s.char_iterator.dropWhile notQuote = []
    · simp [h1] at hb
    · by_cases h2 : trim (s.char_iterator.takeWhile notQuote) = []
      · simp [h1, h2] at hb
      · simp only [h1, h2, if_false] at hb
        exact ⟨rfl, h1, h2, (Except.ok.inj hb).symm⟩

/-! ## Reachable states, termination -/

theorem length_dropWhile_le (p : Char → Bool) (l : List Char) :
    (l.dropWhile p).length ≤ l.length :=
  (List.dropWhile_suffix p).length_le

theorem reachable_init (line : List Char) : Reachable line (initialState line) where
  inLine := List.suffix_refl line
  bufferEmpty := rfl
  notUnknown := by simp [initialState]
  atAlnum := by simp [initialState]
  atDash := by simp [initialState]
  afterQuote := by simp [initialState]

theorem reachable_step (line : List Char) (s s' : LoopState) (hR : Reachable line s)
    (hb : loopBody line s = .ok s') : Reachable line s' := by
  rcases loopBody_ok_cases line s s' hb hR.notUnknown with
    ⟨_, _, hbuf, h⟩ | ⟨_, h⟩ | ⟨_, _, _, h⟩ | ⟨_, _, _, h⟩
  · have hsuf : s.char_iterator.dropWhile isSpace <:+ line :=
      (List.dropWhile_suffix isSpace).trans hR.inLine
    rcases h with ⟨h1, h2, _⟩ | ⟨h1, c, r, h2, h3, h4⟩ | ⟨h1, r, h2, h3⟩ | ⟨h1, h2⟩
    · exact ⟨by rw [h2]; exact List.nil_suffix, hbuf.trans hR.bufferEmpty, by simp [h1],
        by simp [h1], by simp [h1], by simp [h1]⟩
    · exact ⟨by rw [h2, ← h4]; exact hsuf, hbuf.trans hR.bufferEmpty, by simp [h1],
        fun _ => ⟨c, r, h2, h3⟩, by simp [h1], by simp [h1]⟩
    · exact ⟨by rw [h2, ← h3]; exact hsuf, hbuf.trans hR.bufferEmpty, by simp [h1],
        by simp [h1], fun _ => ⟨r, h2⟩, by simp [h1]⟩
    · rw [h2] at hsuf
      exact ⟨(List.suffix_cons _ _).trans hsuf, hbuf.trans hR.bufferEmpty, by simp [h1],
        by simp [h1], by simp [h1], fun _ => hsuf⟩
  · subst h
    exact ⟨(List.dropWhile_suffix bisalnum).trans hR.inLine, rfl, by simp, by simp, by simp,
      by simp⟩
  · subst h
    exact ⟨(List.dropWhile_suffix bisalnum).trans
        ((List.dropWhile_suffix isDash).trans hR.inLine), rfl, by simp, by simp, by simp,
      by simp⟩
  · subst h
    exact ⟨(List.tail_suffix _).trans ((List.dropWhile_suffix notQuote).trans hR.inLine),
      rfl, by simp, by simp, by simp, by simp⟩

/-- Every iteration that does not throw decreases `loopMeasure`. -/
theorem measure_step (line : List Char) (s s' : LoopState) (hR : Reachable line s)
    (hne : s.char_iterator ≠ []) (hb : loopBody line s = .ok s') :
    loopMeasure s' < loopMeasure s := by
  rcases loopBody_ok_cases line s s' hb hR.notUnknown with
    ⟨hs, _, _, h⟩ | ⟨hs, h⟩ | ⟨hs, _, _, h⟩ | ⟨hs, hd, _, h⟩
  · have hlen := length_dropWhile_le isSpace s.char_iterator
    have hpos : 0 < s.char_iterator.length := List.length_pos.mpr hne
    rcases h with ⟨h1, h2, _⟩ | ⟨h1, c, r, h2, h3, h4⟩ | ⟨h1, r, h2, h3⟩ | ⟨h1, h2⟩
    · simp only [loopMeasure, hs, h1, h2, if_true, List.length_nil]; omega
    · rw [h4, ← h2] at hlen
      simp [loopMeasure, hs, h1]; omega
    · rw [h3, ← h2] at hlen
      simp [loopMeasure, hs, h1]; omega
    · rw [h2] at hlen
      simp only [List.length_cons] at hlen
      simp [loopMeasure, hs, h1]; omega
  · obtain ⟨c, r, hc, hal⟩ := hR.atAlnum hs
    subst h
    have := length_dropWhile_le bisalnum r
    simp [loopMeasure, hs, hc, hal]; omega
  · obtain ⟨r, hc⟩ := hR.atDash hs
    subst h
    have h1 := length_dropWhile_le isDash r
    have h2 := length_dropWhile_le bisalnum (r.dropWhile isDash)
    have hd : isDash '-' = true := rfl
    simp [loopMeasure, hs, hc, hd]; omega
  · subst h
    have h1 := length_dropWhile_le notQuote s.char_iterator
    have h2 : 0 < (s.char_iterator.dropWhile notQuote).length := List.length_pos.mpr hd
    simp [loopMeasure, hs]; omega

/-- The main loop ends: from a reachable state, more fuel than `loopMeasure`
is enough. -/
theorem mainLoop_total (line : List Char) (f : Nat) (s : LoopState)
    (hR : Reachable line s) (hf : loopMeasure s < f) :
    ∃ r, mainLoop line f s = some r := by
  induction f generalizing s with
  | zero => omega
  | succ f ih =>
    by_cases h0 : s.char_iterator = []
    · exact ⟨_, mainLoop_done line f s h0⟩
    · cases hb : loopBody line s with
      | error e => exact ⟨_, mainLoop_error line f s e h0 hb⟩
      | ok s1 =>
        rw [mainLoop_step line f s s1 h0 hb]
        have := measure_step line s s1 hR h0 hb
        exact ih s1 (reachable_step line s s1 hR hb) (by omega)

/-- The result of `tokenize` from a run of the loop on any amount of fuel. -/
theorem tokenize_of_mainLoop (line : List Char) (f : Nat) (r : Except String LoopState)
    (h : mainLoop line f (initialState line) = some r) :
    tokenize line =
      match r with
      | .error e => some (.error e)
      | .ok s =>
        if s.buffer ≠ [] then
          some (.error (bufferNotEmptyMsg (col line s.char_iterator) s.buffer))
        else some (.ok s.tokens) := by
  obtain ⟨r', hr'⟩ := mainLoop_total line (2 * line.length + 2) (initialState line)
    (reachable_init line) (by simp [loopMeasure, initialState])
  have := mainLoop_det line _ _ _ _ _ h hr'
  subst this
  simp only [tokenize, hr']
  cases r <;> rfl

/-- The fuel given by `tokenize` never runs out. -/
theorem tokenize_ne_none (line : List Char) : tokenize line ≠ none := by
  obtain ⟨r, hr⟩ := mainLoop_total line (2 * line.length + 2) (initialState line)
    (reachable_init line) (by simp [loopMeasure, initialState])
  rw [tokenize_of_mainLoop line _ r hr]
  cases r with
  | error e => simp
  | ok s => by_cases hb : s.buffer = [] <;> simp [hb]

theorem tokenize_of_mainLoop_error (line : List Char) (f : Nat) (e : String)
    (h : mainLoop line f (initialState line) = some (.error e)) :
    tokenize line = some (.error e) := by
  rw [tokenize_of_mainLoop line f _ h]

theorem tokenize_of_mainLoop_ok (line : List Char) (f : Nat) (s : LoopState)
    (h : mainLoop line f (initialState line) = some (.ok s)) (hb : s.buffer = []) :
    tokenize line = some (.ok s.tokens) := by
  rw [tokenize_of_mainLoop line f _ h]
  simp [hb]

/-- A run of `tokenize` that returns tokens is a run of the loop that ends in a
reachable state holding them. -/
theorem tokenize_ok_iff (line : List Char) (toks : List Token) :
    tokenize line = some (.ok toks) ↔
      ∃ s, mainLoop line (2 * line.length + 2) (initialState line) = some (.ok s) ∧
        s.tokens = toks ∧ s.buffer = [] := by
  simp only [tokenize]
  cases hm : mainLoop line (2 * line.length + 2) (initialState line) with
  | none => simp
  | some r =>
    cases r with
    | error e => simp
    | ok s =>
      by_cases hb : s.buffer = []
      · simp [hb]
      · simp [hb]

/-! ## Runs of characters -/

theorem not_isSpace_of_bisalnum (c : Char) (h : bisalnum c = true) : isSpace c = false := by
  by_contra hc
  have : c = ' ' := by simpa [isSpace] using hc
  subst this
  exact absurd h (by decide)

theorem not_isDash_of_bisalnum (c : Char) (h : bisalnum c = true) : isDash c = false := by
  by_contra hc
  have : c = '-' := by simpa [isDash] using hc
  subst this
  exact absurd h (by decide)

theorem notQuote_of_bisalnum (c : Char) (h : bisalnum c = true) : notQuote c = true := by
  by_contra hc
  have : c = '"' := by simpa [notQuote] using hc
  subst this
  exact absurd h (by decide)

theorem takeWhile_append_stop (p : Char → Bool) (a rest : List Char)
    (ha : ∀ c ∈ a, p c = true) (hr : ∀ c, rest.head? = some c → p c = false) :
    (a ++ rest).takeWhile p = a := by
  rw [List.takeWhile_append_of_pos ha]
  cases rest with
  | nil => simp
  | cons c r => simp [hr c rfl]

theorem dropWhile_append_stop (p : Char → Bool) (a rest : List Char)
    (ha : ∀ c ∈ a, p c = true) (hr : ∀ c, rest.head? = some c → p c = false) :
    (a ++ rest).dropWhile p = rest := by
  rw [List.dropWhile_append_of_pos ha]
  exact dropWhile_eq_self_of_head p rest hr

/-- On a distance below `2^31` the conversion to `int` changes nothing. -/
theorem toInt_of_lt (d : Nat) (h : d < 2147483648) : toInt d = d := by
  unfold toInt
  omega

theorem notQuote_iff (c : Char) : notQuote c = true ↔ c ≠ '"' := by
  simp [notQuote]

theorem notQuote_of_isTrimChar (c : Char) (h : isTrimChar c = true) : notQuote c = true := by
  by_contra hc
  have : c = '"' := by simpa [notQuote] using hc
  subst this
  exact absurd h (by decide)

theorem all_notQuote (s : List Char) (hq : '"' ∉ s) : ∀ c ∈ s, notQuote c = true := by
  intro c hc
  rw [notQuote_iff]
  rintro rfl
  exact hq hc

/-- The run of `tokenize` on `"s"` when `s` has no quote in it: the string
sub-scanner stops at the closing quote and the outcome is decided by `trim s`. -/
theorem tokenize_quoted (s : List Char) (hq : '"' ∉ s) :
    tokenize ('"' :: (s ++ ['"'])) =
      if trim s = [] then some (.error (emptyStringMsg 1))
      else some (.ok [⟨trim s, .STRING, toInt (s.length + 2)⟩]) := by
  have hstop : ∀ c, ['"'].head? = some c → notQuote c = false := by
    intro c hc
    simp only [List.head?_cons, Option.some.injEq] at hc
    subst hc
    rfl
  have ht : (s ++ ['"']).takeWhile notQuote = s :=
    takeWhile_append_stop notQuote s ['"'] (all_notQuote s hq) hstop
  have hd : (s ++ ['"']).dropWhile notQuote = ['"'] :=
    dropWhile_append_stop notQuote s ['"'] (all_notQuote s hq) hstop
  have h1 : loopBody ('"' :: (s ++ ['"'])) (initialState ('"' :: (s ++ ['"'])))
      = .ok ⟨[], .STRING, [], s ++ ['"']⟩ := by
    rw [loopBody_INITIAL _ _ rfl]
    have e1 : isSpace '"' = false := rfl
    have e2 : bisalnum '"' = false := rfl
    simp [initialState, e1, e2]
  by_cases he : trim s = []
  · have h2 : loopBody ('"' :: (s ++ ['"'])) ⟨[], .STRING, [], s ++ ['"']⟩
        = .error (emptyStringMsg 1) := by
      rw [loopBody_STRING _ _ rfl, processStringCase_eq]
      have e1 : toInt 1 = 1 := rfl
      simp [ht, hd, he, col, e1]
    have hrun : mainLoop ('"' :: (s ++ ['"'])) 2 (initialState ('"' :: (s ++ ['"'])))
        = some (.error (emptyStringMsg 1)) := by
      rw [mainLoop_step _ 1 _ _ (by simp [initialState]) h1,
        mainLoop_error _ 0 _ _ (by simp) h2]
    rw [tokenize_of_mainLoop _ 2 _ hrun]
    simp [he]
  · have h2 : loopBody ('"' :: (s ++ ['"'])) ⟨[], .STRING, [], s ++ ['"']⟩
        = .ok ⟨[⟨trim s, .STRING, toInt (s.length + 2)⟩], .INITIAL, [], []⟩ := by
      rw [loopBody_STRING _ _ rfl, processStringCase_eq]
      simp [ht, hd, he, col]
    have hrun : mainLoop ('"' :: (s ++ ['"'])) 3 (initialState ('"' :: (s ++ ['"'])))
        = some (.ok ⟨[⟨trim s, .STRING, toInt (s.length + 2)⟩], .INITIAL, [], []⟩) := by
      rw [mainLoop_step _ 2 _ _ (by simp [initialState]) h1,
        mainLoop_step _ 1 _ _ (by simp) h2, mainLoop_done _ 0 _ rfl]
    rw [tokenize_of_mainLoop _ 3 _ hrun]
    simp [he]

/-! ## Leaving the `INITIAL` state -/

theorem dropWhile_isSpace_append (sp rest : List Char) (hsp : ∀ x ∈ sp, isSpace x = true)
    (hr : ∀ c, rest.head? = some c → isSpace c = false) :
    (sp ++ rest).dropWhile isSpace = rest :=
  dropWhile_append_stop isSpace sp rest hsp hr

theorem loopBody_initial_alnum (line : List Char) (toks : List Token) (buf it : List Char)
    (c : Char) (r : List Char) (hd : it.dropWhile isSpace = c :: r) (hc : bisalnum c = true) :
    loopBody line ⟨toks, .INITIAL, buf, it⟩ = .ok ⟨toks, .IDENTIFIER, buf, c :: r⟩ := by
  rw [loopBody_INITIAL _ _ rfl]
  simp [hd, hc]

theorem loopBody_initial_dash (line : List Char) (toks : List Token) (buf it : List Char)
    (r : List Char) (hd : it.dropWhile isSpace = '-' :: r) :
    loopBody line ⟨toks, .INITIAL, buf, it⟩ = .ok ⟨toks, .FLAG, buf, '-' :: r⟩ := by
  rw [loopBody_INITIAL _ _ rfl]
  have e : bisalnum '-' = false := rfl
  simp [hd, e]

theorem loopBody_initial_quote (line : List Char) (toks : List Token) (buf it : List Char)
    (r : List Char) (hd : it.dropWhile isSpace = '"' :: r) :
    loopBody line ⟨toks, .INITIAL, buf, it⟩ = .ok ⟨toks, .STRING, buf, r⟩ := by
  rw [loopBody_INITIAL _ _ rfl]
  have e : bisalnum '"' = false := rfl
  simp [hd, e]

theorem loopBody_initial_end (line : List Char) (toks : List Token) (buf it : List Char)
    (hd : it.dropWhile isSpace = []) :
    loopBody line ⟨toks, .INITIAL, buf, it⟩ = .ok ⟨toks, .INITIAL, buf, []⟩ := by
  rw [loopBody_INITIAL _ _ rfl]
  simp [hd]

theorem takeWhile_isDash_eq (l : List Char) :
    l.takeWhile isDash = List.replicate (l.takeWhile isDash).length '-' := by
  rw [List.eq_replicate_iff]
  refine ⟨rfl, fun b hb => ?_⟩
  have := List.mem_takeWhile_imp hb
  simpa [isDash] using this

theorem head_dropWhile_notQuote (l : List Char) (h : l.dropWhile notQuote ≠ []) :
    l.dropWhile notQuote = '"' :: (l.dropWhile notQuote).tail := by
  cases hd : l.dropWhile notQuote with
  | nil => exact absurd hd h
  | cons q post =>
    have := List.head?_dropWhile_not notQuote l
    rw [hd] at this
    have hq : q = '"' := by simpa [notQuote] using this
    rw [hq]; rfl

/-- Every iteration keeps the tokens well shaped. -/
theorem shaped_step (line : List Char) (s s' : LoopState) (hR : Reachable line s)
    (hT : ∀ t ∈ s.tokens, t.Shaped) (hb : loopBody line s = .ok s') :
    ∀ t ∈ s'.tokens, t.Shaped := by
  rcases loopBody_ok_cases line s s' hb hR.notUnknown with
    ⟨_, ht, _, _⟩ | ⟨hs, h⟩ | ⟨hs, hk, ha, h⟩ | ⟨hs, _, htr, h⟩
  · rw [ht]; exact hT
  · subst h
    obtain ⟨c, r, hc, hal⟩ := hR.atAlnum hs
    intro t ht
    rcases List.mem_append.mp ht with ht | ht
    · exact hT t ht
    · rw [List.mem_singleton] at ht
      subst ht
      simp only [Token.Shaped, hR.bufferEmpty, List.nil_append]
      refine ⟨?_, fun x hx => List.mem_takeWhile_imp hx⟩
      rw [hc, List.takeWhile_cons_of_pos hal]
      simp
  · subst h
    obtain ⟨r, hc⟩ := hR.atDash hs
    intro t ht
    rcases List.mem_append.mp ht with ht | ht
    · exact hT t ht
    · rw [List.mem_singleton] at ht
      subst ht
      simp only [Token.Shaped]
      refine ⟨(s.char_iterator.takeWhile isDash).length, _, ?_, ha,
        fun x hx => List.mem_takeWhile_imp hx, ?_⟩
      · have hpos : 0 < (s.char_iterator.takeWhile isDash).length := by
          have hd : isDash '-' = true := rfl
          rw [hc, List.takeWhile_cons_of_pos hd]
          simp
        omega
      · rw [← takeWhile_isDash_eq]
  · subst h
    intro t ht
    rcases List.mem_append.mp ht with ht | ht
    · exact hT t ht
    · rw [List.mem_singleton] at ht
      subst ht
      simp only [Token.Shaped, trim_trim]
      refine ⟨fun hq => ?_, htr⟩
      have h1 := mem_of_mem_trim _ _ hq
      have h2 := List.mem_takeWhile_imp h1
      simp [notQuote] at h2

/-- Every iteration keeps the tokens placed in the line. -/
theorem placed_step (line : List Char) (s s' : LoopState) (hR : Reachable line s)
    (hT : ∀ t ∈ s.tokens, t.Placed line) (hb : loopBody line s = .ok s') :
    ∀ t ∈ s'.tokens, t.Placed line := by
  rcases loopBody_ok_cases line s s' hb hR.notUnknown with
    ⟨_, ht, _, _⟩ | ⟨hs, h⟩ | ⟨hs, hk, ha, h⟩ | ⟨hs, hd, htr, h⟩
  · rw [ht]; exact hT
  · subst h
    obtain ⟨pre, hpre⟩ := hR.inLine
    intro t ht
    rcases List.mem_append.mp ht with ht | ht
    · exact hT t ht
    · rw [List.mem_singleton] at ht
      subst ht
      simp only [Token.Placed, hR.bufferEmpty, List.nil_append]
      refine ⟨pre, s.char_iterator.dropWhile bisalnum, ?_, ?_⟩
      · rw [List.takeWhile_append_dropWhile, hpre]
      · have h1 := List.takeWhile_append_dropWhile bisalnum s.char_iterator
        have h2 := congrArg List.length h1
        have h3 := congrArg List.length hpre
        simp only [List.length_append] at h2 h3
        simp only [col]; congr 1; omega
  · subst h
    obtain ⟨pre, hpre⟩ := hR.inLine
    intro t ht
    rcases List.mem_append.mp ht with ht | ht
    · exact hT t ht
    · rw [List.mem_singleton] at ht
      subst ht
      simp only [Token.Placed]
      have h1 := List.takeWhile_append_dropWhile isDash s.char_iterator
      have h2 := List.takeWhile_append_dropWhile bisalnum (s.char_iterator.dropWhile isDash)
      have h3 : line = pre ++ ((s.char_iterator.takeWhile isDash
          ++ (s.char_iterator.dropWhile isDash).takeWhile bisalnum)
          ++ (s.char_iterator.dropWhile isDash).dropWhile bisalnum) := by
        rw [List.append_assoc, h2, h1, hpre]
      refine ⟨pre, _, h3, ?_⟩
      have h4 := congrArg List.length h3
      simp only [List.length_append] at h4 ⊢
      simp only [col]; congr 1; omega
  · subst h
    obtain ⟨pre, hpre⟩ := hR.afterQuote hs
    intro t ht
    rcases List.mem_append.mp ht with ht | ht
    · exact hT t ht
    · rw [List.mem_singleton] at ht
      subst ht
      simp only [Token.Placed]
      have h1 := List.takeWhile_append_dropWhile notQuote s.char_iterator
      have h2 := head_dropWhile_notQuote s.char_iterator hd
      have h3 : line = pre ++ '"' :: (s.char_iterator.takeWhile notQuote
          ++ '"' :: (s.char_iterator.dropWhile notQuote).tail) := by
        rw [← h2, h1, ← hpre]; simp
      refine ⟨pre, _, _, h3, ?_, rfl, ?_⟩
      · intro hq
        have := List.mem_takeWhile_imp hq
        simp [notQuote] at this
      · have h4 := congrArg List.length h3
        simp only [List.length_append, List.length_cons] at h4
        simp only [col]; congr 1; omega

/-- The tokens returned by `tokenize` are well shaped and placed in the line. -/
theorem tokenize_tokens_inv (line : List Char) (toks : List Token)
    (h : tokenize line = some (.ok toks)) :
    ∀ t ∈ toks, t.Shaped ∧ t.Placed line := by
  obtain ⟨s, hs, rfl, _⟩ := (tokenize_ok_iff line toks).mp h
  have := mainLoop_inv line
    (fun s => Reachable line s ∧ (∀ t ∈ s.tokens, t.Shaped) ∧ ∀ t ∈ s.tokens, t.Placed line)
    (fun s s' hP _ hb => ⟨reachable_step line s s' hP.1 hb,
      shaped_step line s s' hP.1 hP.2.1 hb, placed_step line s s' hP.1 hP.2.2 hb⟩)
    _ (initialState line) s
    ⟨reachable_init line, by simp [initialState], by simp [initialState]⟩ hs
  intro t ht
  exact ⟨this.1.2.1 t ht, this.1.2.2 t ht⟩

/-! ## C1: a line of well-formed units -/

theorem intercalate_cons_cons (sep x y : List Char) (xs : List (List Char)) :
    List.intercalate sep (x :: y :: xs) = x ++ (sep ++ List.intercalate sep (y :: xs)) := by
  simp [List.intercalate, List.intersperse]

/-- The two iterations that scan one unit standing after spaces and before
the end of the line or a space. -/
theorem unit_scan (line : List Char) (toks : List Token) (sp : List Char) (u : LexUnit)
    (rest : List Char) (hsp : ∀ x ∈ sp, isSpace x = true) (hwf : u.WellFormed)
    (hrest : ∀ x, rest.head? = some x → x = ' ') (f : Nat) :
    mainLoop line (f + 2) ⟨toks, .INITIAL, [], sp ++ (u.text ++ rest)⟩
      = mainLoop line f ⟨toks ++ [⟨u.content, u.type, col line rest⟩], .INITIAL, [], rest⟩ := by
  have hra : ∀ x, rest.head? = some x → bisalnum x = false := by
    intro x hx; rw [hrest x hx]; rfl
  cases u with
  | identifier word =>
    obtain ⟨hne, hal⟩ := hwf
    obtain ⟨c, w, rfl⟩ := List.exists_cons_of_ne_nil hne
    have hc := hal c (List.mem_cons_self _ _)
    have hd : (sp ++ ((c :: w) ++ rest)).dropWhile isSpace = c :: (w ++ rest) := by
      rw [dropWhile_isSpace_append _ _ hsp]
      · rfl
      · intro x hx
        simp only [List.cons_append, List.head?_cons, Option.some.injEq] at hx
        subst hx
        exact not_isSpace_of_bisalnum _ hc
    have h1 := loopBody_initial_alnum line toks [] _ c (w ++ rest) hd hc
    have h2 : loopBody line ⟨toks, .IDENTIFIER, [], c :: (w ++ rest)⟩
        = .ok ⟨toks ++ [⟨c :: w, .IDENTIFIER, col line rest⟩], .INITIAL, [], rest⟩ := by
      rw [loopBody_IDENTIFIER _ _ rfl]
      have e : c :: (w ++ rest) = (c :: w) ++ rest := rfl
      simp only [e, takeWhile_append_stop bisalnum _ _ hal hra,
        dropWhile_append_stop bisalnum _ _ hal hra, List.nil_append]
    simp only [LexUnit.text, LexUnit.content, LexUnit.type]
    rw [mainLoop_step line (f + 1) _ _ (by simp) h1, mainLoop_step line f _ _ (by simp) h2]
  | flag dashes word =>
    obtain ⟨hk, hne, hal⟩ := hwf
    have hdash : ∀ x ∈ List.replicate dashes '-', isDash x = true := by
      intro x hx
      rw [(List.mem_replicate.mp hx).2]; rfl
    have hwr : ∀ x, (word ++ rest).head? = some x → isDash x = false := by
      obtain ⟨c, w, rfl⟩ := List.exists_cons_of_ne_nil hne
      intro x hx
      simp only [List.cons_append, List.head?_cons, Option.some.injEq] at hx
      subst hx
      exact not_isDash_of_bisalnum _ (hal _ (List.mem_cons_self _ _))
    obtain ⟨k', hk'⟩ : ∃ k', dashes = k' + 1 := ⟨dashes - 1, by omega⟩
    have hd : (sp ++ ((List.replicate dashes '-' ++ word) ++ rest)).dropWhile isSpace
        = '-' :: (List.replicate k' '-' ++ (word ++ rest)) := by
      rw [dropWhile_isSpace_append _ _ hsp]
      · rw [hk']; simp [List.replicate_succ]
      · intro x hx
        rw [hk'] at hx
        simp only [List.replicate_succ, List.cons_append, List.head?_cons,
          Option.some.injEq] at hx
        subst hx; rfl
    have e : '-' :: (List.replicate k' '-' ++ (word ++ rest))
        = List.replicate dashes '-' ++ (word ++ rest) := by
      rw [hk']; simp [List.replicate_succ]
    have h1 := loopBody_initial_dash line toks [] _ _ hd
    have h2 : loopBody line ⟨toks, .FLAG, [], '-' :: (List.replicate k' '-' ++ (word ++ rest))⟩
        = .ok ⟨toks ++ [⟨List.replicate dashes '-' ++ word, .FLAG, col line rest⟩],
            .INITIAL, [], rest⟩ := by
      rw [loopBody_FLAG _ _ rfl, processFlagCase_eq]
      simp only [e, takeWhile_append_stop isDash _ _ hdash hwr,
        dropWhile_append_stop isDash _ _ hdash hwr, takeWhile_append_stop bisalnum _ _ hal hra,
        dropWhile_append_stop bisalnum _ _ hal hra, List.length_replicate]
      have hk2 : ¬ 2 < dashes := by omega
      simp [hk2, hne]
    have hne1 : sp ++ (List.replicate dashes '-' ++ word ++ rest) ≠ [] := by
      intro h0
      have := congrArg List.length h0
      simp only [List.length_append, List.length_replicate, List.length_nil] at this
      omega
    simp only [LexUnit.text, LexUnit.content, LexUnit.type]
    rw [mainLoop_step line (f + 1) _ _ hne1 h1, mainLoop_step line f _ _ (by simp) h2]
  | quoted s =>
    obtain ⟨hne, hq, hh, hl⟩ := hwf
    have hd : (sp ++ (('"' :: (s ++ ['"'])) ++ rest)).dropWhile isSpace
        = '"' :: (s ++ '"' :: rest) := by
      rw [dropWhile_isSpace_append _ _ hsp]
      · simp
      · intro x hx
        simp only [List.cons_append, List.head?_cons, Option.some.injEq] at hx
        subst hx; rfl
    have hstop : ∀ c, ('"' :: rest).head? = some c → notQuote c = false := by
      intro c hc
      simp only [List.head?_cons, Option.some.injEq] at hc
      subst hc
      rfl
    have h1 := loopBody_initial_quote line toks [] _ _ hd
    have h2 : loopBody line ⟨toks, .STRING, [], s ++ '"' :: rest⟩
        = .ok ⟨toks ++ [⟨s, .STRING, col line rest⟩], .INITIAL, [], rest⟩ := by
      rw [loopBody_STRING _ _ rfl, processStringCase_eq]
      simp only [takeWhile_append_stop notQuote _ _ (all_notQuote s hq) hstop,
        dropWhile_append_stop notQuote _ _ (all_notQuote s hq) hstop, trim_eq_self s hh hl]
      simp [hne]
    simp only [LexUnit.text, LexUnit.content, LexUnit.type]
    rw [mainLoop_step line (f + 1) _ _ (by simp) h1, mainLoop_step line f _ _ (by simp) h2]

/-- The loop on a non-empty sequence of well-formed units joined by single
spaces ends with one more token per unit. -/
theorem units_run (line : List Char) (us : List LexUnit) (hne : us ≠ [])
    (hwf : ∀ u ∈ us, u.WellFormed) (toks : List Token) (sp : List Char)
    (hsp : ∀ x ∈ sp, isSpace x = true) :
    ∃ f s, mainLoop line f
        ⟨toks, .INITIAL, [], sp ++ List.intercalate [' '] (us.map LexUnit.text)⟩ = some (.ok s) ∧
      s.buffer = [] ∧
      s.tokens.map (fun t => (t.type, t.content))
        = toks.map (fun t => (t.type, t.content)) ++ us.map (fun u => (u.type, u.content)) := by
  induction us generalizing toks sp with
  | nil => exact absurd rfl hne
  | cons u us ih =>
    cases us with
    | nil =>
      have e : List.intercalate [' '] ([u].map LexUnit.text) = u.text ++ [] := by
        simp [List.intercalate]
      refine ⟨3, ⟨toks ++ [⟨u.content, u.type, col line []⟩], .INITIAL, [], []⟩, ?_, rfl, ?_⟩
      · rw [e, unit_scan line toks sp u [] hsp (hwf u (List.mem_cons_self _ _)) (by simp) 1,
          mainLoop_done line 0 _ rfl]
      · simp
    | cons u' us' =>
      have e : List.intercalate [' '] ((u :: u' :: us').map LexUnit.text)
          = u.text ++ ([' '] ++ List.intercalate [' '] ((u' :: us').map LexUnit.text)) := by
        simp only [List.map_cons]
        exact intercalate_cons_cons _ _ _ _
      obtain ⟨f, s, hs, hb, hm⟩ := ih (by simp)
        (fun v hv => hwf v (List.mem_cons_of_mem _ hv))
        (toks ++ [⟨u.content, u.type,
          col line ([' '] ++ List.intercalate [' '] ((u' :: us').map LexUnit.text))⟩])
        [' '] (by decide)
      refine ⟨f + 2, s, ?_, hb, ?_⟩
      · rw [e, unit_scan line toks sp u _ hsp (hwf u (List.mem_cons_self _ _)) (by simp) f]
        exact hs
      · rw [hm]; simp

/-- C1. For every non-empty list of well-formed lexical units (identifiers,
flags, quoted strings), `tokenize` applied to the units joined by single
spaces succeeds and returns exactly one token per unit, in the same order,
with the type and the content of the unit (the text between the quotes for a
quoted string). -/
theorem tokenize_units (us : List LexUnit) (hne : us ≠ []) (hwf : ∀ u ∈ us, u.WellFormed) :
    ∃ toks, tokenize (List.intercalate [' '] (us.map LexUnit.text)) = some (.ok toks) ∧
      toks.map (fun t => (t.type, t.content)) = us.map (fun u => (u.type, u.content)) := by
  obtain ⟨f, s, hs, hb, hm⟩ :=
    units_run (List.intercalate [' '] (us.map LexUnit.text)) us hne hwf [] [] (by simp)
  refine ⟨s.tokens, tokenize_of_mainLoop_ok _ f s hs hb, ?_⟩
  simpa using hm

theorem tokenize_units_witness :
    ∃ toks, tokenize (List.intercalate [' ']
        ([LexUnit.flag 1 ['s'], LexUnit.quoted ['h', 'e', 'l', 'l', 'o']].map LexUnit.text))
          = some (.ok toks) ∧
      toks.map (fun t => (t.type, t.content))
        = [LexUnit.flag 1 ['s'], LexUnit.quoted ['h', 'e', 'l', 'l', 'o']].map
            (fun u => (u.type, u.content)) :=
  tokenize_units [LexUnit.flag 1 ['s'], LexUnit.quoted ['h', 'e', 'l', 'l', 'o']] (by simp)
    (by
      intro u hu
      simp only [List.mem_cons, List.mem_singleton, List.not_mem_nil, or_false] at hu
      rcases hu with rfl | rfl
      · exact ⟨Or.inl rfl, by simp, by decide⟩
      · exact ⟨by simp, by decide, by decide, by decide⟩)

/-! ## C2: a line that is one identifier -/

/-- The run of `tokenize` on a non-empty line of alphanumeric characters: two
iterations, `INITIAL` then `IDENTIFIER`. -/
theorem alnum_line_run (line : List Char) (hne : line ≠ [])
    (hal : ∀ c ∈ line, bisalnum c = true) :
    tokenize line = some (.ok [⟨line, .IDENTIFIER, toInt line.length⟩]) := by
  obtain ⟨c, r, rfl⟩ := List.exists_cons_of_ne_nil hne
  have hc : bisalnum c = true := hal c (List.mem_cons_self _ _)
  have h1 : loopBody (c :: r) (initialState (c :: r))
      = .ok ⟨[], .IDENTIFIER, [], c :: r⟩ := by
    rw [loopBody_INITIAL _ _ rfl]
    simp [initialState, not_isSpace_of_bisalnum c hc, hc]
  have h2 : loopBody (c :: r) ⟨[], .IDENTIFIER, [], c :: r⟩
      = .ok ⟨[⟨c :: r, .IDENTIFIER, toInt (c :: r).length⟩], .INITIAL, [], []⟩ := by
    rw [loopBody_IDENTIFIER _ _ rfl]
    have ht : (c :: r).takeWhile bisalnum = c :: r := List.takeWhile_eq_self_iff.mpr hal
    have hd : (c :: r).dropWhile bisalnum = [] := List.dropWhile_eq_nil_iff.mpr hal
    simp only [ht, hd, List.nil_append, col, List.length_nil, Nat.sub_zero]
  have hrun : mainLoop (c :: r) 3 (initialState (c :: r))
      = some (.ok ⟨[⟨c :: r, .IDENTIFIER, toInt (c :: r).length⟩], .INITIAL, [], []⟩) := by
    rw [mainLoop_step _ 2 _ _ (by simp [initialState]) h1,
      mainLoop_step _ 1 _ _ (by simp) h2, mainLoop_done _ 0 _ rfl]
  rw [tokenize_of_mainLoop _ 3 _ hrun]
  simp

/-- C2. A non-empty line made only of alphanumeric characters is tokenized into
exactly one token, of type `IDENTIFIER`, whose content is the whole line (its
column is the length of the line, converted to `int`). -/
theorem tokenize_alnum_line (line : List Char) (hne : line ≠ [])
    (hal : ∀ c ∈ line, bisalnum c = true) :
    tokenize line = some (.ok [⟨line, .IDENTIFIER, toInt line.length⟩]) :=
  alnum_line_run line hne hal

theorem tokenize_alnum_line_witness :
    tokenize ['a', 'b', 'c', '1', '2', '3']
      = some (.ok [⟨['a', 'b', 'c', '1', '2', '3'], .IDENTIFIER, 6⟩]) :=
  tokenize_alnum_line ['a', 'b', 'c', '1', '2', '3'] (by decide) (by decide)

/-- Why the theorems about columns take lines shorter than `2^31` characters:
on a line of `2^31` alphanumeric characters the column of the one token is the
`int` `-2147483648`, not the offset `2147483648` of the cursor. -/
theorem column_of_long_line (line : List Char) (hlen : line.length = 2147483648)
    (hal : ∀ c ∈ line, bisalnum c = true) :
    tokenize line = some (.ok [⟨line, .IDENTIFIER, -2147483648⟩]) := by
  have hne : line ≠ [] := by
    intro h0
    rw [h0] at hlen
    cases hlen
  have h := alnum_line_run line hne hal
  have e : toInt 2147483648 = -2147483648 := by decide
  rw [hlen, e] at h
  exact h

/-! ## C3: the content of a string token -/

/-- C3, as stated, fails: on the line `" a "` the token content is `a`, not the
untrimmed ` a `. -/
theorem string_content_untrimmed_counterexample :
    '"' ∉ [' ', 'a', ' '] ∧ 'a' ∈ [' ', 'a', ' '] ∧ isTrimChar 'a' = false ∧
      tokenize ('"' :: ([' ', 'a', ' '] ++ ['"'])) = some (.ok [⟨['a'], .STRING, 5⟩]) ∧
      ['a'] ≠ [' ', 'a', ' '] := by
  refine ⟨by decide, by decide, by decide, ?_, by decide⟩
  rfl

/-- C3, amended. For every `s` with no quote and at least one character outside
the trim set, `tokenize` applied to `"s"` returns a single `STRING` token whose
content is `trim s`, that is `s` without its longest prefix and its longest
suffix of trim-set characters: `trim` overwrites the buffer that becomes the
token content. -/
theorem tokenize_quoted_content (s : List Char) (hq : '"' ∉ s)
    (hs : ∃ c ∈ s, isTrimChar c = false) :
    tokenize ('"' :: (s ++ ['"'])) = some (.ok [⟨trim s, .STRING, toInt (s.length + 2)⟩]) ∧
      trim s = (s.dropWhile isTrimChar).rdropWhile isTrimChar := by
  refine ⟨?_, trim_eq s⟩
  have hne : trim s ≠ [] := by
    rw [Ne, trim_eq_nil_iff]
    intro hall
    obtain ⟨c, hc, hcf⟩ := hs
    rw [hall c hc] at hcf
    cases hcf
  rw [tokenize_quoted s hq, if_neg hne]

theorem tokenize_quoted_content_witness :
    tokenize ('"' :: ([' ', 'a', ' ', 'b', '\t'] ++ ['"']))
        = some (.ok [⟨trim [' ', 'a', ' ', 'b', '\t'], .STRING, 7⟩]) ∧
      trim [' ', 'a', ' ', 'b', '\t']
        = ([' ', 'a', ' ', 'b', '\t'].dropWhile isTrimChar).rdropWhile isTrimChar :=
  tokenize_quoted_content [' ', 'a', ' ', 'b', '\t'] (by decide) ⟨'a', by decide, by decide⟩

/-! ## C6: empty and blank string literals -/

/-- C6. For every `s` made only of characters of the trim set (space, tab,
newline, carriage return, form feed, vertical tab), the empty `s` included,
`tokenize` applied to `"s"` throws the empty-string error with column 1. -/
theorem tokenize_blank_string (s : List Char) (hs : ∀ c ∈ s, isTrimChar c = true) :
    tokenize ('"' :: (s ++ ['"'])) = some (.error (emptyStringMsg 1)) := by
  have hq : '"' ∉ s := by
    intro hmem
    exact absurd (hs _ hmem) (by decide)
  rw [tokenize_quoted s hq, if_pos ((trim_eq_nil_iff s).mpr hs)]

theorem tokenize_blank_string_witness :
    tokenize ('"' :: ([' ', '\t', ' '] ++ ['"'])) = some (.error (emptyStringMsg 1)) :=
  tokenize_blank_string [' ', '\t', ' '] (by decide)

theorem placed_segment (line : List Char) (t : Token) (hP : t.Placed line)
    (hty : t.type = .IDENTIFIER ∨ t.type = .FLAG) :
    ∃ pre post, line = pre ++ (t.content ++ post) ∧
      t.col = toInt (pre.length + t.content.length) := by
  rcases hty with hty | hty <;> simpa [Token.Placed, hty] using hP

/-- C9, as stated, fails: the identifier of the line `ab` has column 2, and
the characters of the line from offset 2 on do not spell `ab`. -/
theorem column_at_first_char_counterexample :
    tokenize ['a', 'b'] = some (.ok [⟨['a', 'b'], .IDENTIFIER, 2⟩]) ∧
      ((['a', 'b'] : List Char).drop 2).take 2 ≠ ['a', 'b'] :=
  ⟨rfl, by decide⟩

/-- C9, amended. On a line shorter than `2^31` characters, for every
`IDENTIFIER` or `FLAG` token returned by `tokenize`, the column is the offset
one past the last character consumed to produce it: the first character
consumed is at offset `col - |content|`, and the characters of the line at
offsets `col - |content| .. col - 1` spell the content. -/
theorem tokenize_column_past_last_char (line : List Char) (toks : List Token)
    (hlen : line.length < 2 ^ 31)
    (h : tokenize line = some (.ok toks)) (t : Token) (ht : t ∈ toks)
    (hty : t.type = .IDENTIFIER ∨ t.type = .FLAG) :
    (t.content.length : Int) ≤ t.col ∧
      ∀ i, i < t.content.length →
        (line)[(t.col - t.content.length).toNat + i]? = t.content[i]? := by
  obtain ⟨pre, post, hl, hc⟩ :=
    placed_segment line t (tokenize_tokens_inv line toks h t ht).2 hty
  have hlen2 := congrArg List.length hl
  simp only [List.length_append] at hlen2
  rw [toInt_of_lt _ (by omega)] at hc
  refine ⟨by omega, fun i hi => ?_⟩
  have e : (t.col - t.content.length).toNat + i = pre.length + i := by omega
  rw [e, hl, List.getElem?_append_right (by omega)]
  simp only [Nat.add_sub_cancel_left]
  rw [List.getElem?_append_left hi]

theorem tokenize_column_past_last_char_witness :
    ((⟨['-', 's'], .FLAG, 2⟩ : Token).content.length : Int) ≤ (⟨['-', 's'], .FLAG, 2⟩ : Token).col ∧
      ∀ i, i < (⟨['-', 's'], .FLAG, 2⟩ : Token).content.length →
        ['-', 's', ' ', '"', 'h', 'i', '"'][((⟨['-', 's'], .FLAG, 2⟩ : Token).col
            - (⟨['-', 's'], .FLAG, 2⟩ : Token).content.length).toNat + i]?
          = (⟨['-', 's'], .FLAG, 2⟩ : Token).content[i]? :=
  tokenize_column_past_last_char ['-', 's', ' ', '"', 'h', 'i', '"']
    [⟨['-', 's'], .FLAG, 2⟩, ⟨['h', 'i'], .STRING, 7⟩] (by decide) rfl ⟨['-', 's'], .FLAG, 2⟩
    (List.mem_cons_self _ _) (Or.inr rfl)

theorem takeWhile_append_cons_stop (p : Char → Bool) (a : List Char) (c : Char) (s : List Char)
    (hc : p c = false) : (a ++ c :: s).takeWhile p = a.takeWhile p := by
  induction a with
  | nil => simp [hc]
  | cons x xs ih =>
    by_cases hx : p x = true
    · simp [hx, ih]
    · simp [hx]

theorem dropWhile_append_cons_stop (p : Char → Bool) (a : List Char) (c : Char) (s : List Char)
    (hc : p c = false) : (a ++ c :: s).dropWhile p = a.dropWhile p ++ c :: s := by
  induction a with
  | nil => simp [hc]
  | cons x xs ih =>
    by_cases hx : p x = true
    · simp [hx, ih]
    · simp [hx]

theorem col_append_right (line it q : List Char) : col (line ++ q) (it ++ q) = col line it := by
  simp only [col, List.length_append]; congr 1; omega

/-- In a line without quotes the loop is never in the `STRING` state. -/
theorem not_string_of_no_quote (p : List Char) (hp : '"' ∉ p) (s1 : LoopState)
    (hR : Reachable p s1) : s1.state ≠ .STRING := by
  intro hs
  exact hp ((hR.afterQuote hs).subset (by simp))

/-- An iteration on the line `p`, free of quotes, is the same iteration on the
line `p` followed by a quote and `s`, unless it skips spaces up to the end of
`p`. -/
theorem loopBody_before_quote (p s : List Char) (hp : '"' ∉ p) (s1 s1' : LoopState)
    (hR : Reachable p s1) (hb : loopBody p s1 = .ok s1')
    (hlast : ¬ (s1.state = .INITIAL ∧ s1.char_iterator.dropWhile isSpace = [])) :
    loopBody (p ++ '"' :: s) ⟨s1.tokens, s1.state, s1.buffer, s1.char_iterator ++ '"' :: s⟩
      = .ok ⟨s1'.tokens, s1'.state, s1'.buffer, s1'.char_iterator ++ '"' :: s⟩ := by
  have q1 : isSpace '"' = false := rfl
  have q2 : bisalnum '"' = false := rfl
  have q3 : isDash '"' = false := rfl
  rcases loopBody_ok_cases p s1 s1' hb hR.notUnknown with
    ⟨hs, ht, hbuf, h⟩ | ⟨hs, h⟩ | ⟨hs, hk, ha, h⟩ | ⟨hs, _, _, _⟩
  · have hdw := dropWhile_append_cons_stop isSpace s1.char_iterator '"' s q1
    rcases h with ⟨_, _, h3⟩ | ⟨h1, c, r, h2, h3, h4⟩ | ⟨h1, r, h2, h3⟩ | ⟨_, h2⟩
    · exact absurd ⟨hs, h3⟩ hlast
    · rw [h4] at hdw
      have := loopBody_initial_alnum (p ++ '"' :: s) s1.tokens s1.buffer
        (s1.char_iterator ++ '"' :: s) c (r ++ '"' :: s) hdw h3
      rw [hs, this, ht, hbuf, h1, h2]; rfl
    · rw [h3] at hdw
      have := loopBody_initial_dash (p ++ '"' :: s) s1.tokens s1.buffer
        (s1.char_iterator ++ '"' :: s) (r ++ '"' :: s) hdw
      rw [hs, this, ht, hbuf, h1, h2]; rfl
    · exfalso
      apply hp
      apply hR.inLine.subset
      apply (List.dropWhile_suffix isSpace).subset
      rw [h2]; simp
  · subst h
    rw [loopBody_IDENTIFIER (p ++ '"' :: s)
      ⟨s1.tokens, s1.state, s1.buffer, s1.char_iterator ++ '"' :: s⟩ hs]
    simp only [takeWhile_append_cons_stop bisalnum _ _ _ q2,
      dropWhile_append_cons_stop bisalnum _ _ _ q2, col_append_right]
  · subst h
    rw [loopBody_FLAG (p ++ '"' :: s)
      ⟨s1.tokens, s1.state, s1.buffer, s1.char_iterator ++ '"' :: s⟩ hs, processFlagCase_eq]
    simp only [takeWhile_append_cons_stop isDash _ _ _ q3,
      dropWhile_append_cons_stop isDash _ _ _ q3, takeWhile_append_cons_stop bisalnum _ _ _ q2,
      dropWhile_append_cons_stop bisalnum _ _ _ q2, col_append_right]
    have hk2 : ¬ 2 < (s1.char_iterator.takeWhile isDash).length := by omega
    simp only [hk2, ha, if_false]
    rw [col_append_right]
  · exact absurd hs (not_string_of_no_quote p hp s1 hR)

/-- The loop on `p ++ '"' :: s`, where `p` is free of quotes and is tokenized
without error: it does on `p` what it does on the line `p`, then opens a
string; with `s` empty the loop condition fails at once and the loop ends
normally, otherwise the string sub-scanner throws. -/
theorem mainLoop_before_quote (p s : List Char) (hp : '"' ∉ p) (hs : '"' ∉ s)
    (f : Nat) (s1 sfin : LoopState) (hR : Reachable p s1)
    (hrun : mainLoop p f s1 = some (.ok sfin)) :
    ∃ g, mainLoop (p ++ '"' :: s) g
        ⟨s1.tokens, s1.state, s1.buffer, s1.char_iterator ++ '"' :: s⟩
      = if s = [] then some (.ok ⟨sfin.tokens, .STRING, sfin.buffer, []⟩)
        else some (.error (unterminatedMsg (toInt (p.length + 1)))) := by
  have hfinal : ∀ (toks : List Token) (buf it : List Char),
      it.dropWhile isSpace = [] →
      mainLoop (p ++ '"' :: s) 2 ⟨toks, .INITIAL, buf, it ++ '"' :: s⟩
        = if s = [] then some (.ok ⟨toks, .STRING, buf, []⟩)
          else some (.error (unterminatedMsg (toInt (p.length + 1)))) := by
    intro toks buf it hit
    have hd : (it ++ '"' :: s).dropWhile isSpace = '"' :: s := by
      rw [dropWhile_append_cons_stop isSpace it '"' s rfl, hit]; rfl
    rw [mainLoop_step _ 1 _ _ (by simp) (loopBody_initial_quote _ toks buf _ s hd)]
    by_cases h0 : s = []
    · subst h0
      rw [mainLoop_done _ 0 _ rfl]; simp
    · have herr : loopBody (p ++ '"' :: s) ⟨toks, .STRING, buf, s⟩
          = .error (unterminatedMsg (toInt (p.length + 1))) := by
        rw [loopBody_STRING _ _ rfl, processStringCase_eq]
        have : s.dropWhile notQuote = [] := List.dropWhile_eq_nil_iff.mpr (all_notQuote s hs)
        have hcol : col (p ++ '"' :: s) s = toInt (p.length + 1) := by
          simp only [col, List.length_append, List.length_cons]; congr 1; omega
        simp [this, hcol]
      rw [mainLoop_error _ 0 _ _ h0 herr, if_neg h0]
  induction f generalizing s1 with
  | zero => simp [mainLoop] at hrun
  | succ f ih =>
    by_cases h0 : s1.char_iterator = []
    · rw [mainLoop_done p f s1 h0] at hrun
      have hsf : s1 = sfin := by
        injection hrun with h1
        injection h1
      subst hsf
      have hst : s1.state = .INITIAL := by
        cases hs1 : s1.state with
        | INITIAL => rfl
        | UNKNOWN => exact absurd hs1 hR.notUnknown
        | IDENTIFIER =>
          obtain ⟨c, r, hc, _⟩ := hR.atAlnum hs1
          rw [h0] at hc; cases hc
        | FLAG =>
          obtain ⟨r, hc⟩ := hR.atDash hs1
          rw [h0] at hc; cases hc
        | STRING => exact absurd hs1 (not_string_of_no_quote p hp s1 hR)
      refine ⟨2, ?_⟩
      rw [hst, hfinal s1.tokens s1.buffer s1.char_iterator (by rw [h0]; rfl)]
    · cases hb : loopBody p s1 with
      | error e => rw [mainLoop_error p f s1 e h0 hb] at hrun; cases hrun
      | ok s1' =>
        rw [mainLoop_step p f s1 s1' h0 hb] at hrun
        by_cases hlast : s1.state = .INITIAL ∧ s1.char_iterator.dropWhile isSpace = []
        · have hb' := hb
          rw [loopBody_INITIAL p s1 hlast.1, hlast.2] at hb'
          have hs1' : s1' = { s1 with state := .INITIAL, char_iterator := [] } :=
            (Except.ok.inj hb').symm
          have hfin : sfin = s1' := by
            cases f with
            | zero => simp [mainLoop] at hrun
            | succ f' =>
              rw [mainLoop_done p f' s1' (by rw [hs1'])] at hrun
              cases hrun; rfl
          refine ⟨2, ?_⟩
          rw [hlast.1, hfinal s1.tokens s1.buffer s1.char_iterator hlast.2, hfin, hs1']
        · obtain ⟨g, hg⟩ := ih s1' (reachable_step p s1 s1' hR hb) hrun
          refine ⟨g + 1, ?_⟩
          rw [mainLoop_step _ g _ _ (by simp)
            (loopBody_before_quote p s hp s1 s1' hR hb hlast)]
          exact hg

/-- C7, on the code. For `p` free of quotes and tokenized without error, and
`s` free of quotes: when `s` is not empty `tokenize (p ++ '"' ++ s)` throws the
unterminated-string error with column `|p| + 1` (converted to `int`); when `s` is empty (the
opening quote ends the line) it throws nothing and returns the tokens of `p`,
because the loop condition fails before the `STRING` case is run. -/
theorem tokenize_open_quote (p s : List Char) (toks : List Token) (hp : '"' ∉ p)
    (hs : '"' ∉ s) (hok : tokenize p = some (.ok toks)) :
    (s ≠ [] → tokenize (p ++ '"' :: s) = some (.error (unterminatedMsg (toInt (p.length + 1))))) ∧
    (s = [] → tokenize (p ++ '"' :: s) = some (.ok toks)) := by
  obtain ⟨sfin, hrun, rfl, hbuf⟩ := (tokenize_ok_iff p toks).mp hok
  obtain ⟨g, hg⟩ := mainLoop_before_quote p s hp hs _ (initialState p) sfin
    (reachable_init p) hrun
  have hinit : (⟨(initialState p).tokens, (initialState p).state, (initialState p).buffer,
      (initialState p).char_iterator ++ '"' :: s⟩ : LoopState)
        = initialState (p ++ '"' :: s) := rfl
  rw [hinit] at hg
  constructor
  · intro hne
    rw [if_neg hne] at hg
    exact tokenize_of_mainLoop_error _ g _ hg
  · intro he
    rw [if_pos he] at hg
    exact tokenize_of_mainLoop_ok _ g ⟨sfin.tokens, .STRING, sfin.buffer, []⟩ hg hbuf

theorem tokenize_open_quote_witness :
    (([] : List Char) ≠ [] → tokenize (['a', 'b', ' '] ++ '"' :: [])
        = some (.error (unterminatedMsg (toInt (['a', 'b', ' '].length + 1))))) ∧
    (([] : List Char) = [] → tokenize (['a', 'b', ' '] ++ '"' :: [])
        = some (.ok [⟨['a', 'b'], .IDENTIFIER, 2⟩])) :=
  tokenize_open_quote ['a', 'b', ' '] [] [⟨['a', 'b'], .IDENTIFIER, 2⟩] (by decide) (by decide)
    rfl

/-- The line `ab "`, whose last character is an opening quote: `tokenize`
returns the identifier and throws nothing. -/
theorem tokenize_trailing_quote :
    tokenize ['a', 'b', ' ', '"'] = some (.ok [⟨['a', 'b'], .IDENTIFIER, 2⟩]) :=
  rfl

/-! ## C8: unrecognised characters -/

theorem lineContent_dropWhile_isSpace (q : List Char → List Char) (it : List Char) :
    lineContent q none it = lineContent q none (it.dropWhile isSpace) := by
  induction it with
  | nil => rfl
  | cons c r ih =>
    by_cases h : c = ' '
    · subst h
      have e : isSpace ' ' = true := rfl
      rw [List.dropWhile_cons_of_pos e, ← ih]
      simp [lineContent]
    · have e : ¬ isSpace c = true := by simpa [isSpace] using h
      rw [List.dropWhile_cons_of_neg e]

theorem lineContent_run (q : List Char → List Char) (a r : List Char)
    (ha : ∀ x ∈ a, x ≠ '"' ∧ x ≠ ' ') :
    lineContent q none (a ++ r) = a ++ lineContent q none r := by
  induction a with
  | nil => rfl
  | cons c a ih =>
    obtain ⟨h1, h2⟩ := ha c (List.mem_cons_self _ _)
    simp only [List.cons_append, lineContent, h1, h2, if_false, List.append_eq]
    rw [ih (fun x hx => ha x (List.mem_cons_of_mem _ hx))]

theorem lineContent_quoted (q : List Char → List Char) (acc body r : List Char)
    (hb : ∀ x ∈ body, x ≠ '"') :
    lineContent q (some acc) (body ++ '"' :: r) = q (acc ++ body) ++ lineContent q none r := by
  induction body generalizing acc with
  | nil => simp [lineContent]
  | cons c body ih =>
    have h1 := hb c (List.mem_cons_self _ _)
    simp only [List.cons_append, lineContent, h1, if_false, List.append_eq]
    rw [ih (acc ++ [c]) (fun x hx => hb x (List.mem_cons_of_mem _ hx))]
    simp

theorem run_char_of_bisalnum (x : Char) (h : bisalnum x = true) : x ≠ '"' ∧ x ≠ ' ' := by
  constructor
  · rintro rfl; exact absurd h (by decide)
  · rintro rfl; exact absurd h (by decide)

theorem run_char_of_isDash (x : Char) (h : isDash x = true) : x ≠ '"' ∧ x ≠ ' ' := by
  have : x = '-' := by simpa [isDash] using h
  subst this
  exact ⟨by decide, by decide⟩

/-- What is still to come from the line in a state of the loop. -/
theorem content_step (line : List Char) (s s' : LoopState) (hR : Reachable line s)
    (hb : loopBody line s = .ok s')
    (hI : (s.tokens.map Token.content).flatten
        ++ lineContent trim (if s.state = .STRING then some [] else none) s.char_iterator
      = lineContent trim none line) :
    (s'.tokens.map Token.content).flatten
        ++ lineContent trim (if s'.state = .STRING then some [] else none) s'.char_iterator
      = lineContent trim none line := by
  rw [← hI]
  rcases loopBody_ok_cases line s s' hb hR.notUnknown with
    ⟨hs, ht, _, h⟩ | ⟨hs, h⟩ | ⟨hs, _, _, h⟩ | ⟨hs, hd, _, h⟩
  · rw [ht, hs]
    simp only [show (OpTokenType.INITIAL = OpTokenType.STRING) = False from by simp, if_false]
    rw [lineContent_dropWhile_isSpace trim s.char_iterator]
    rcases h with ⟨h1, h2, h3⟩ | ⟨h1, c, r, h2, _, h4⟩ | ⟨h1, r, h2, h3⟩ | ⟨h1, h2⟩
    · rw [h1, h2, h3]; simp
    · rw [h1, h2, h4]; simp
    · rw [h1, h2, h3]; simp
    · rw [h1, h2]; simp [lineContent]
  · subst h
    have hsplit := List.takeWhile_append_dropWhile bisalnum s.char_iterator
    have hrun := lineContent_run trim (s.char_iterator.takeWhile bisalnum)
      (s.char_iterator.dropWhile bisalnum)
      (fun x hx => run_char_of_bisalnum x (List.mem_takeWhile_imp hx))
    rw [hsplit] at hrun
    simp [hs, hR.bufferEmpty, hrun]
  · subst h
    have hsplit := List.takeWhile_append_dropWhile isDash s.char_iterator
    have hsplit2 := List.takeWhile_append_dropWhile bisalnum (s.char_iterator.dropWhile isDash)
    have hrun2 := lineContent_run trim ((s.char_iterator.dropWhile isDash).takeWhile bisalnum)
      ((s.char_iterator.dropWhile isDash).dropWhile bisalnum)
      (fun x hx => run_char_of_bisalnum x (List.mem_takeWhile_imp hx))
    rw [hsplit2] at hrun2
    have hrun := lineContent_run trim (s.char_iterator.takeWhile isDash)
      (s.char_iterator.dropWhile isDash)
      (fun x hx => run_char_of_isDash x (List.mem_takeWhile_imp hx))
    rw [hsplit, hrun2] at hrun
    simp [hs, hrun]
  · subst h
    have hsplit := List.takeWhile_append_dropWhile notQuote s.char_iterator
    have hq := lineContent_quoted trim [] (s.char_iterator.takeWhile notQuote)
      (s.char_iterator.dropWhile notQuote).tail
      (fun x hx => (notQuote_iff x).mp (List.mem_takeWhile_imp hx))
    rw [← head_dropWhile_notQuote s.char_iterator hd, hsplit] at hq
    simp [hs, hq]

/-- C11, as stated, fails: on the line `" a "` the contents of the tokens put
together are `a`, while the line without its quote delimiters, every character
between the quotes kept, is ` a `. -/
theorem contents_keep_quoted_text_counterexample :
    tokenize ['"', ' ', 'a', ' ', '"'] = some (.ok [⟨['a'], .STRING, 5⟩]) ∧
      ([⟨['a'], .STRING, 5⟩].map Token.content).flatten = ['a'] ∧
      lineContent id none ['"', ' ', 'a', ' ', '"'] = [' ', 'a', ' '] ∧
      (['a'] : List Char) ≠ [' ', 'a', ' '] :=
  ⟨rfl, rfl, rfl, by decide⟩

/-- C11, amended. For every line on which `tokenize` succeeds, the contents of
the returned tokens, put together in order, are the line without its quote
delimiters, without the spaces outside quotes and without the leading and
trailing trim-set characters of each quoted text; every other character
between a pair of quotes is kept. -/
theorem tokenize_contents (line : List Char) (toks : List Token)
    (h : tokenize line = some (.ok toks)) :
    (toks.map Token.content).flatten = lineContent trim none line := by
  obtain ⟨s, hs, rfl, _⟩ := (tokenize_ok_iff line toks).mp h
  have := mainLoop_inv line
    (fun x => Reachable line x ∧
      (x.tokens.map Token.content).flatten
          ++ lineContent trim (if x.state = .STRING then some [] else none) x.char_iterator
        = lineContent trim none line)
    (fun x x' hP _ hb => ⟨reachable_step line x x' hP.1 hb,
      content_step line x x' hP.1 hb hP.2⟩)
    _ (initialState line) s ⟨reachable_init line, by simp [initialState]⟩ hs
  obtain ⟨⟨_, hI⟩, hend⟩ := this
  rw [hend] at hI
  rw [← hI]
  have htrim : trim [] = [] := rfl
  by_cases hst : s.state = .STRING <;> simp [hst, lineContent, htrim]

theorem tokenize_contents_witness :
    ([⟨['-', 's'], .FLAG, 2⟩, ⟨['h', ' ', 'i'], .STRING, 10⟩].map Token.content).flatten
      = lineContent trim none ['-', 's', ' ', '"', ' ', 'h', ' ', 'i', ' ', '"'] :=
  tokenize_contents ['-', 's', ' ', '"', ' ', 'h', ' ', 'i', ' ', '"']
    [⟨['-', 's'], .FLAG, 2⟩, ⟨['h', ' ', 'i'], .STRING, 10⟩] rfl

/-! ## C20: `tokenize` terminates -/

theorem reachable_of_inRun (line : List Char) (s : LoopState) (h : InRun line s) :
    Reachable line s := by
  induction h with
  | start => exact reachable_init line
  | next s s' _ _ hb ih => exact reachable_step line s s' ih hb

/-- An iteration in the `INITIAL` state leaves the cursor on a suffix of what
it had in front of it. -/
theorem initial_step_suffix (line : List Char) (s s' : LoopState) (hR : Reachable line s)
    (hs : s.state = .INITIAL) (hb : loopBody line s = .ok s') :
    s'.char_iterator <:+ s.char_iterator := by
  rcases loopBody_ok_cases line s s' hb hR.notUnknown with
    ⟨_, _, _, h⟩ | ⟨h, _⟩ | ⟨h, _⟩ | ⟨h, _⟩
  · rcases h with ⟨_, h2, _⟩ | ⟨_, c, r, h2, _, h4⟩ | ⟨_, r, h2, h3⟩ | ⟨_, h2⟩
    · rw [h2]; exact List.nil_suffix
    · rw [h2, ← h4]; exact List.dropWhile_suffix _
    · rw [h2, ← h3]; exact List.dropWhile_suffix _
    · exact (List.suffix_cons _ _).trans (h2 ▸ List.dropWhile_suffix isSpace)
  · rw [hs] at h; cases h
  · rw [hs] at h; cases h
  · rw [hs] at h; cases h

/-- C20. `tokenize` is total: on every line the main loop ends within the fuel
it is given, and `tokenize` returns tokens or throws.  Every iteration that
does not throw either advances the cursor, or leaves the `INITIAL` state
without moving the cursor, and then the next iteration advances the cursor. -/
theorem tokenize_total (line : List Char) :
    (∃ r, tokenize line = some r) ∧
    ∀ s s', InRun line s → s.char_iterator ≠ [] → loopBody line s = .ok s' →
      (s'.char_iterator.length < s.char_iterator.length ∨
        (s.state = .INITIAL ∧ s'.state ≠ .INITIAL ∧ s'.char_iterator = s.char_iterator ∧
          ∀ s'', loopBody line s' = .ok s'' →
            s''.char_iterator.length < s'.char_iterator.length)) := by
  constructor
  · cases h : tokenize line with
    | none => exact absurd h (tokenize_ne_none line)
    | some r => exact ⟨r, rfl⟩
  · intro s s' hin hne hb
    have hR := reachable_of_inRun line s hin
    have hm := measure_step line s s' hR hne hb
    by_cases hlt : s'.char_iterator.length < s.char_iterator.length
    · exact Or.inl hlt
    · right
      have hs : s.state = .INITIAL := by
        by_contra hs
        simp only [loopMeasure, hs, if_false] at hm
        split at hm <;> omega
      have hs' : s'.state ≠ .INITIAL := by
        intro hs'
        simp only [loopMeasure, hs, hs', if_true] at hm
        omega
      have hsuf := initial_step_suffix line s s' hR hs hb
      have heq : s'.char_iterator = s.char_iterator :=
        hsuf.eq_of_length (by have := hsuf.length_le; omega)
      refine ⟨hs, hs', heq, fun s'' hb' => ?_⟩
      have hm' := measure_step line s' s'' (reachable_step line s s' hR hb)
        (by rw [heq]; exact hne) hb'
      simp only [loopMeasure, hs', if_false] at hm'
      split at hm' <;> omega

theorem tokenize_total_witness :
    (∃ r, tokenize ['a', 'b'] = some r) ∧
      ((⟨[], .IDENTIFIER, [], ['a', 'b']⟩ : LoopState).char_iterator.length
          < (initialState ['a', 'b']).char_iterator.length ∨
        ((initialState ['a', 'b']).state = .INITIAL ∧
          (⟨[], .IDENTIFIER, [], ['a', 'b']⟩ : LoopState).state ≠ .INITIAL ∧
          (⟨[], .IDENTIFIER, [], ['a', 'b']⟩ : LoopState).char_iterator
            = (initialState ['a', 'b']).char_iterator ∧
          ∀ s'', loopBody ['a', 'b'] ⟨[], .IDENTIFIER, [], ['a', 'b']⟩ = .ok s'' →
            s''.char_iterator.length
              < (⟨[], .IDENTIFIER, [], ['a', 'b']⟩ : LoopState).char_iterator.length)) :=
  ⟨(tokenize_total ['a', 'b']).1,
    (tokenize_total ['a', 'b']).2 (initialState ['a', 'b']) ⟨[], .IDENTIFIER, [], ['a', 'b']⟩
      InRun.start (by decide) rfl⟩
/-! ## C23: the messages of the errors of `tokenize` -/

/-- C24. The buffer of `tokenize` is empty every time the condition of the
main loop is evaluated, so it is empty in the state in which the loop ends and
the test after the loop never fires: every error of `tokenize` is an error
thrown inside the loop. -/
theorem buffer_always_empty (line : List Char) :
    (∀ s, InRun line s → s.buffer = []) ∧
    (∀ s, mainLoop line (2 * line.length + 2) (initialState line) = some (.ok s) →
      s.buffer = []) ∧
    (∀ e, tokenize line = some (.error e) →
      mainLoop line (2 * line.length + 2) (initialState line) = some (.error e)) := by
  have hend : ∀ s, mainLoop line (2 * line.length + 2) (initialState line) = some (.ok s) →
      s.buffer = [] := by
    intro s hs
    exact (mainLoop_inv line (fun x => Reachable line x)
      (fun x x' hP _ hb => reachable_step line x x' hP hb) _ (initialState line) s
      (reachable_init line) hs).1.bufferEmpty
  refine ⟨fun s hs => (reachable_of_inRun line s hs).bufferEmpty, hend, fun e he => ?_⟩
  unfold tokenize at he
  cases hm : mainLoop line (2 * line.length + 2) (initialState line) with
  | none => rw [hm] at he; cases he
  | some r =>
    cases r with
    | error e' =>
      rw [hm] at he
      injection he with h1
      injection h1 with h2
      rw [h2]
    | ok s =>
      rw [hm] at he
      simp [hend s hm] at he

theorem buffer_always_empty_witness :
    (∀ s, InRun ['a', ' ', '#'] s → s.buffer = []) ∧
    (∀ s, mainLoop ['a', ' ', '#'] (2 * ['a', ' ', '#'].length + 2)
        (initialState ['a', ' ', '#']) = some (.ok s) → s.buffer = []) ∧
    (∀ e, tokenize ['a', ' ', '#'] = some (.error e) →
      mainLoop ['a', ' ', '#'] (2 * ['a', ' ', '#'].length + 2)
        (initialState ['a', ' ', '#']) = some (.error e)) :=
  buffer_always_empty ['a', ' ', '#']

/-! ## C27: the columns of the tokens -/

theorem rdropWhile_append_rtakeWhile (p : Char → Bool) (l : List Char) :
    l.rdropWhile p ++ l.rtakeWhile p = l := by
  induction l using List.reverseRecOn with
  | nil => simp
  | append_singleton l x ih =>
    by_cases hx : p x = true
    · rw [List.rdropWhile_concat_pos _ _ _ hx, List.rtakeWhile_concat_pos _ _ _ hx,
        ← List.append_assoc, ih]
    · rw [List.rdropWhile_concat_neg _ _ _ hx, List.rtakeWhile_concat_neg _ _ _ hx]
      simp

theorem trim_last_not (t : List Char) (c : Char) (h : (trim t).getLast? = some c) :
    isTrimChar c = false := by
  rw [trim_eq] at h
  have hne : (t.dropWhile isTrimChar).rdropWhile isTrimChar ≠ [] := by
    intro h0; rw [h0] at h; cases h
  have h1 := List.rdropWhile_last_not isTrimChar (t.dropWhile isTrimChar) hne
  rw [List.getLast?_eq_getLast _ hne] at h
  injection h with h2
  rw [h2] at h1
  simpa using h1

/-- C25. `trim text` is `text` without its longest prefix and its longest
suffix of characters of the set (space, tab, newline, carriage return, form
feed, vertical tab): `text` is `pre ++ trim text ++ post` with `pre` and `post`
made of such characters and `trim text` neither starting nor ending with one.
The result is empty exactly when every character of `text` is in the set, the
empty `text` included.  The value is both what `trim` returns and what it
leaves in the caller's string. -/
theorem trim_spec (text : List Char) :
    (∀ c, isTrimChar c = true ↔
      c = ' ' ∨ c = '\t' ∨ c = '\n' ∨ c = '\r' ∨ c = '\x0c' ∨ c = '\x0b') ∧
    trim text = (text.dropWhile isTrimChar).rdropWhile isTrimChar ∧
    (∃ pre post, text = pre ++ (trim text ++ post) ∧
      (∀ c ∈ pre, isTrimChar c = true) ∧ (∀ c ∈ post, isTrimChar c = true) ∧
      (∀ c, (trim text).head? = some c → isTrimChar c = false) ∧
      (∀ c, (trim text).getLast? = some c → isTrimChar c = false)) ∧
    (trim text = [] ↔ ∀ c ∈ text, isTrimChar c = true) := by
  refine ⟨fun c => ?_, trim_eq text, ?_, trim_eq_nil_iff text⟩
  · simp [isTrimChar, trimSet]
  · refine ⟨text.takeWhile isTrimChar, (text.dropWhile isTrimChar).rtakeWhile isTrimChar,
      ?_, fun c hc => List.mem_takeWhile_imp hc, fun c hc => List.mem_rtakeWhile_imp hc,
      trim_head_not text, trim_last_not text⟩
    rw [trim_eq, rdropWhile_append_rtakeWhile, List.takeWhile_append_dropWhile]

theorem trim_spec_witness :
    (∀ c, isTrimChar c = true ↔
      c = ' ' ∨ c = '\t' ∨ c = '\n' ∨ c = '\r' ∨ c = '\x0c' ∨ c = '\x0b') ∧
    trim [' ', 'a', ' ', 'b', '\t']
      = ([' ', 'a', ' ', 'b', '\t'].dropWhile isTrimChar).rdropWhile isTrimChar ∧
    (∃ pre post, [' ', 'a', ' ', 'b', '\t'] = pre ++ (trim [' ', 'a', ' ', 'b', '\t'] ++ post) ∧
      (∀ c ∈ pre, isTrimChar c = true) ∧ (∀ c ∈ post, isTrimChar c = true) ∧
      (∀ c, (trim [' ', 'a', ' ', 'b', '\t']).head? = some c → isTrimChar c = false) ∧
      (∀ c, (trim [' ', 'a', ' ', 'b', '\t']).getLast? = some c → isTrimChar c = false)) ∧
    (trim [' ', 'a', ' ', 'b', '\t'] = [] ↔ ∀ c ∈ [' ', 'a', ' ', 'b', '\t'], isTrimChar c = true) :=
  trim_spec [' ', 'a', ' ', 'b', '\t']

/-! ## The resolver: fuel and basic steps -/

theorem deref_of_getElem? (tokens : List Token) (it : Nat) (t : Token)
    (h : tokens[it]? = some t) : deref tokens it = .ok t := by
  simp [deref, h]

theorem deref_ok_lt (tokens : List Token) (it : Nat) (t : Token)
    (h : deref tokens it = .ok t) : it < tokens.length ∧ tokens[it]? = some t := by
  unfold deref at h
  cases hg : tokens[it]? with
  | none => rw [hg] at h; cases h
  | some u =>
    rw [hg] at h
    cases h
    exact ⟨(List.getElem?_eq_some.mp hg).1, rfl⟩

theorem setupLoop_step {N V : Type} [DecidableEq N] (rules : List (FlagRule N V))
    (end_it f : Nat) (s s' : SetupState N V) (hne : s.token_it ≠ end_it)
    (hb : setupBody rules end_it s = .ok s') :
    setupLoop rules end_it (f + 1) s = setupLoop rules end_it f s' := by
  simp [setupLoop, hne, hb]

theorem setupLoop_error {N V : Type} [DecidableEq N] (rules : List (FlagRule N V))
    (end_it f : Nat) (s : SetupState N V) (e : Abort) (hne : s.token_it ≠ end_it)
    (hb : setupBody rules end_it s = .error e) :
    setupLoop rules end_it (f + 1) s = some (.error e) := by
  simp [setupLoop, hne, hb]

theorem setupLoop_done {N V : Type} [DecidableEq N] (rules : List (FlagRule N V))
    (end_it f : Nat) (s : SetupState N V) (h : s.token_it = end_it) :
    setupLoop rules end_it (f + 1) s = some (.ok s) := by
  simp [setupLoop, h]

/-- More fuel does not change the outcome of a run that ended. -/
theorem setupLoop_mono {N V : Type} [DecidableEq N] (rules : List (FlagRule N V))
    (end_it f k : Nat) (s : SetupState N V) (r : Except Abort (SetupState N V))
    (h : setupLoop rules end_it f s = some r) :
    setupLoop rules end_it (f + k) s = some r := by
  induction f generalizing s with
  | zero => simp [setupLoop] at h
  | succ f ih =>
    have e : f + 1 + k = (f + k) + 1 := by omega
    rw [e]
    by_cases h0 : s.token_it = end_it
    · rw [setupLoop_done rules end_it _ s h0] at h ⊢
      exact h
    · cases hb : setupBody rules end_it s with
      | error e =>
        rw [setupLoop_error rules end_it _ s e h0 hb] at h ⊢
        exact h
      | ok s' =>
        rw [setupLoop_step rules end_it _ s s' h0 hb] at h ⊢
        exact ih s' h

/-- A property kept by every iteration holds when the loop ends normally. -/
theorem setupLoop_inv {N V : Type} [DecidableEq N] (rules : List (FlagRule N V))
    (end_it : Nat) (P : SetupState N V → Prop)
    (hstep : ∀ s s', P s → s.token_it ≠ end_it → setupBody rules end_it s = .ok s' → P s')
    (f : Nat) (s s' : SetupState N V) (hs : P s)
    (h : setupLoop rules end_it f s = some (.ok s')) : P s' ∧ s'.token_it = end_it := by
  induction f generalizing s with
  | zero => simp [setupLoop] at h
  | succ f ih =>
    by_cases h0 : s.token_it = end_it
    · rw [setupLoop_done rules end_it f s h0] at h
      injection h with h1
      injection h1 with h2
      subst h2
      exact ⟨hs, h0⟩
    · cases hb : setupBody rules end_it s with
      | error e => rw [setupLoop_error rules end_it f s e h0 hb] at h; cases h
      | ok s1 =>
        rw [setupLoop_step rules end_it f s s1 h0 hb] at h
        exact ih s1 (hstep s s1 hs h0 hb) h

/-- The rule loop leaves everything as it is when no rule has the content of
the token at `token_it` in its group. -/
theorem rulesLoop_no_match {N V : Type} [DecidableEq N] (end_it : Nat)
    (rules : List (FlagRule N V)) (s : SetupState N V) (t : Token)
    (ht : deref (s.tokens ++ s.stale) s.token_it = .ok t) (hno : ∀ r ∈ rules, t.content ∉ r.group) :
    rulesLoop end_it rules s = .ok s := by
  induction rules with
  | nil => rfl
  | cons r rest ih =>
    rw [rulesLoop, ht]
    simp only [hno r (List.mem_cons_self _ _), if_false]
    exact ih (fun r' hr' => hno r' (List.mem_cons_of_mem _ hr'))

/-- An iteration of the scanning loop on a token that is not a flag moves to
the next token. -/
theorem setupBody_skip {N V : Type} [DecidableEq N] (rules : List (FlagRule N V))
    (end_it : Nat) (s : SetupState N V) (t : Token)
    (ht : deref (s.tokens ++ s.stale) s.token_it = .ok t) (hty : t.type ≠ .FLAG) :
    setupBody rules end_it s = .ok { s with token_it := s.token_it + 1 } := by
  simp [setupBody, ht, hty]

/-- An iteration of the scanning loop on a flag that no rule knows changes
nothing, not even `token_it`. -/
theorem setupBody_unknown_flag {N V : Type} [DecidableEq N] (rules : List (FlagRule N V))
    (end_it : Nat) (s : SetupState N V) (t : Token)
    (ht : deref (s.tokens ++ s.stale) s.token_it = .ok t) (hty : t.type = .FLAG)
    (hno : ∀ r ∈ rules, t.content ∉ r.group) :
    setupBody rules end_it s = .ok s := by
  simp only [setupBody, ht, hty, ne_eq, not_true_eq_false, if_false]
  exact rulesLoop_no_match end_it rules s t ht hno

/-! ## `getFlagArgument` and one pass of the rule loop -/

/-- The part of `getFlagArgument` that looks at the next token, at a flag of
the vector and with the true end of the vector: the content of the next token
when there is one and it is a string, the empty string otherwise. -/
theorem nextArgument_eq (tokens : List Token) (it : Nat) (t : Token)
    (ht : tokens[it]? = some t) (hty : t.type = .FLAG) :
    (match nextIsString tokens (if it + 1 ≠ tokens.length then it + 1 else it)
        tokens.length with
      | .error e => .error e
      | .ok true => nextContent tokens (if it + 1 ≠ tokens.length then it + 1 else it)
      | .ok false => .ok (.string []))
    = (.ok (.string (match tokens[it + 1]? with
        | some u => if u.type = .STRING then u.content else []
        | none => [])) : Except Abort flag_arg) := by
  have hlt : it < tokens.length := (List.getElem?_eq_some.mp ht).1
  by_cases hlast : it + 1 = tokens.length
  · have hnone : tokens[it + 1]? = none := by
      rw [List.getElem?_eq_none_iff]; omega
    simp [nextIsString, deref, ht, hty, hnone, Nat.ne_of_lt hlt, hlast]
  · have hlt1 : it + 1 < tokens.length := by omega
    have hsome : tokens[it + 1]? = some tokens[it + 1] := List.getElem?_eq_getElem hlt1
    by_cases hs : tokens[it + 1].type = .STRING
    · simp [nextIsString, nextContent, deref, hsome, hs, hlast]
    · simp [nextIsString, deref, hsome, hs, hlast]

/-- The value of `getFlagArgument` at a flag of the vector, with the true end
of the vector, whatever `needs_argument` holds. -/
theorem getFlagArgument_eq {N V : Type} (rule : FlagRule N V) (tokens : List Token)
    (it : Nat) (t : Token) (ht : tokens[it]? = some t) (hty : t.type = .FLAG) :
    getFlagArgument rule tokens it tokens.length =
      .ok (.string (match tokens[it + 1]? with
        | some u => if u.type = .STRING then u.content else []
        | none => [])) := by
  unfold getFlagArgument
  cases hna : rule.needs_argument with
  | none => simpa using nextArgument_eq tokens it t ht hty
  | some b => simpa using nextArgument_eq tokens it t ht hty

/-- Inside the storage, with its end as `end`, `getFlagArgument` reads nothing
outside and returns a string. -/
theorem getFlagArgument_ok {N V : Type} (rule : FlagRule N V) (tokens : List Token)
    (it : Nat) (hlt : it < tokens.length) :
    ∃ a, getFlagArgument rule tokens it tokens.length = .ok (.string a) := by
  have hnext : ∃ a, (match nextIsString tokens (if it + 1 ≠ tokens.length then it + 1 else it)
        tokens.length with
      | .error e => .error e
      | .ok true => nextContent tokens (if it + 1 ≠ tokens.length then it + 1 else it)
      | .ok false => .ok (.string [])) = (.ok (.string a) : Except Abort flag_arg) := by
    by_cases hlast : it + 1 = tokens.length
    · have hsome : tokens[it]? = some tokens[it] := List.getElem?_eq_getElem hlt
      by_cases hs : tokens[it].type = .STRING
      · exact ⟨tokens[it].content, by
          simp [nextIsString, nextContent, deref, hsome, hs, hlast, Nat.ne_of_lt hlt]⟩
      · exact ⟨[], by simp [nextIsString, deref, hsome, hs, hlast, Nat.ne_of_lt hlt]⟩
    · have hlt1 : it + 1 < tokens.length := by omega
      have hsome : tokens[it + 1]? = some tokens[it + 1] := List.getElem?_eq_getElem hlt1
      by_cases hs : tokens[it + 1].type = .STRING
      · exact ⟨tokens[it + 1].content, by
          simp [nextIsString, nextContent, deref, hsome, hs, hlast]⟩
      · exact ⟨[], by simp [nextIsString, deref, hsome, hs, hlast]⟩
  obtain ⟨a, ha⟩ := hnext
  refine ⟨a, ?_⟩
  unfold getFlagArgument
  cases hna : rule.needs_argument with
  | none => simpa using ha
  | some b => simpa using ha

/-- Erasing an element of the vector: the element goes, the slot vacated
joins the slots behind the end. -/
theorem erase_eq {N V : Type} (s : SetupState N V) (t : Token)
    (ht : s.tokens[s.token_it]? = some t) :
    erase s = .ok { tokens := s.tokens.eraseIdx s.token_it, token_it := s.token_it,
                    set := s.set, stale := vacated s.tokens s.token_it t :: s.stale } := by
  simp [erase, ht]

/-- Erasing an element keeps the size of the storage. -/
theorem length_erase (tokens stale : List Token) (it : Nat) (v : Token)
    (hlt : it < tokens.length) :
    (tokens.eraseIdx it ++ v :: stale).length = (tokens ++ stale).length := by
  simp only [List.length_append, List.length_cons, List.length_eraseIdx_of_lt hlt]
  omega

/-- One pass of the rule loop over a rule that has the content of the token
at `token_it` in its group: the flag is stored and only that token is
erased. -/
theorem rulesLoop_match {N V : Type} [DecidableEq N] (end_it : Nat) (rule : FlagRule N V)
    (rest : List (FlagRule N V)) (s : SetupState N V) (t : Token) (a : flag_arg)
    (ht : s.tokens[s.token_it]? = some t) (hmem : t.content ∈ rule.group)
    (harg : getFlagArgument rule (s.tokens ++ s.stale) s.token_it end_it = .ok a)
    (hfree : s.set.map.lookup rule.config_name = none) :
    rulesLoop end_it (rule :: rest) s =
      rulesLoop end_it rest
        { tokens := s.tokens.eraseIdx s.token_it, token_it := s.token_it,
          set := { map := s.set.map ++ [(rule.config_name, { value := rule.value, arg := a })] },
          stale := vacated s.tokens s.token_it t :: s.stale } := by
  have hlt : s.token_it < s.tokens.length := (List.getElem?_eq_some.mp ht).1
  have hd : deref (s.tokens ++ s.stale) s.token_it = .ok t :=
    deref_of_getElem? _ _ _ (by rw [List.getElem?_append_left hlt]; exact ht)
  rw [rulesLoop, hd]
  simp only [hmem, if_true, harg, FlagSet.setFlag, hfree, Option.isSome_none, Bool.false_eq_true,
    if_false]
  have he := erase_eq ({ s with set := { map := s.set.map ++
    [(rule.config_name, { value := rule.value, arg := a })] } } : SetupState N V) t ht
  simp only [he]

/-- One pass of the rule loop over a rule that matches while its
configuration name is already set: `setFlag` throws. -/
theorem rulesLoop_duplicate {N V : Type} [DecidableEq N] (end_it : Nat) (rule : FlagRule N V)
    (rest : List (FlagRule N V)) (s : SetupState N V) (t : Token) (a : flag_arg)
    (ht : deref (s.tokens ++ s.stale) s.token_it = .ok t) (hmem : t.content ∈ rule.group)
    (harg : getFlagArgument rule (s.tokens ++ s.stale) s.token_it end_it = .ok a)
    (hset : (s.set.map.lookup rule.config_name).isSome = true) :
    rulesLoop end_it (rule :: rest) s = .error (.thrown multipleFlagsMsg) := by
  rw [rulesLoop, ht]
  simp only [hmem, if_true, harg, FlagSet.setFlag, hset]

/-- One pass of the rule loop over a rule that does not match. -/
theorem rulesLoop_skip {N V : Type} [DecidableEq N] (end_it : Nat) (rule : FlagRule N V)
    (rest : List (FlagRule N V)) (s : SetupState N V) (t : Token)
    (ht : deref (s.tokens ++ s.stale) s.token_it = .ok t) (hmem : t.content ∉ rule.group) :
    rulesLoop end_it (rule :: rest) s = rulesLoop end_it rest s := by
  rw [rulesLoop, ht]
  simp only [hmem, if_false]

theorem rulesLoop_append_skip {N V : Type} [DecidableEq N] (end_it : Nat)
    (pre rest : List (FlagRule N V)) (s : SetupState N V) (t : Token)
    (ht : deref (s.tokens ++ s.stale) s.token_it = .ok t)
    (hpre : ∀ r ∈ pre, t.content ∉ r.group) :
    rulesLoop end_it (pre ++ rest) s = rulesLoop end_it rest s := by
  induction pre with
  | nil => rfl
  | cons r pre ih =>
    rw [List.cons_append, rulesLoop_skip end_it r _ s t ht (hpre r (List.mem_cons_self _ _))]
    exact ih (fun r' hr' => hpre r' (List.mem_cons_of_mem _ hr'))

/-! ## A flag followed by a string -/

/-- The iteration of the scanning loop that resolves the flag of the sequence
`[FLAG f, STRING s]`, for a rule that holds a value in `needs_argument`: the
flag is stored with the argument `s` and erased, the string moves to the front
and leaves its former slot behind the end; the rules after the matching one
are then tried on the string. -/
theorem flag_string_first {N V : Type} [DecidableEq N]
    (pre : List (FlagRule N V)) (rule : FlagRule N V) (post : List (FlagRule N V))
    (f s : List Char) (c1 c2 : Int) (b : Bool) (hpre : ∀ r ∈ pre, f ∉ r.group)
    (hmem : f ∈ rule.group) (hreq : rule.needs_argument = some b) :
    setupBody (pre ++ rule :: post) 2
        { tokens := [⟨f, .FLAG, c1⟩, ⟨s, .STRING, c2⟩], token_it := 0, set := { map := [] } }
      = rulesLoop 2 post
          { tokens := [⟨s, .STRING, c2⟩], token_it := 0,
            set := { map := [(rule.config_name, ⟨rule.value, .string s⟩)] },
            stale := [⟨[], .STRING, c2⟩] } := by
  have harg : getFlagArgument rule ([⟨f, .FLAG, c1⟩, ⟨s, .STRING, c2⟩] ++ []) 0 2
      = .ok (.string s) := by
    unfold getFlagArgument
    simp only [hreq]
    rfl
  have hd : deref ([⟨f, .FLAG, c1⟩, ⟨s, .STRING, c2⟩] ++ []) 0 = .ok ⟨f, .FLAG, c1⟩ := rfl
  simp only [setupBody, hd, ne_eq, not_true_eq_false, if_false]
  rw [rulesLoop_append_skip 2 pre (rule :: post) _ ⟨f, .FLAG, c1⟩ hd hpre,
    rulesLoop_match 2 rule post
      { tokens := [⟨f, .FLAG, c1⟩, ⟨s, .STRING, c2⟩], token_it := 0, set := { map := [] } }
      ⟨f, .FLAG, c1⟩ (.string s) rfl hmem harg rfl]
  rfl

/-- The whole run on `[FLAG f, STRING s]` when `s` is in no group of the rules
after the matching one: the loop steps over the string, then over the slot
that the erasure vacated, and ends at the cached `end`. -/
theorem flag_string_run {N V : Type} [DecidableEq N]
    (pre : List (FlagRule N V)) (rule : FlagRule N V) (post : List (FlagRule N V))
    (f s : List Char) (c1 c2 : Int) (b : Bool) (hpre : ∀ r ∈ pre, f ∉ r.group)
    (hmem : f ∈ rule.group) (hreq : rule.needs_argument = some b)
    (hpost : ∀ r ∈ post, s ∉ r.group) (fuel : Nat) (hf : 4 ≤ fuel) :
    getFlagSetup (pre ++ rule :: post) [⟨f, .FLAG, c1⟩, ⟨s, .STRING, c2⟩] fuel
      = some (.ok ([(rule.config_name, ⟨rule.value, .string s⟩)], [⟨s, .STRING, c2⟩])) := by
  obtain ⟨g, rfl⟩ : ∃ g, fuel = g + 4 := ⟨fuel - 4, by omega⟩
  have h1 := flag_string_first pre rule post f s c1 c2 b hpre hmem hreq
  rw [rulesLoop_no_match 2 post
    ({ set := { map := [(rule.config_name, ⟨rule.value, .string s⟩)] },
       tokens := [⟨s, .STRING, c2⟩], token_it := 0, stale := [⟨[], .STRING, c2⟩] }
      : SetupState N V)
    ⟨s, .STRING, c2⟩ rfl hpost] at h1
  have h2 : setupBody (pre ++ rule :: post) 2
      ({ set := { map := [(rule.config_name, ⟨rule.value, .string s⟩)] },
         tokens := [⟨s, .STRING, c2⟩], token_it := 0, stale := [⟨[], .STRING, c2⟩] }
        : SetupState N V)
      = .ok { set := { map := [(rule.config_name, ⟨rule.value, .string s⟩)] },
              tokens := [⟨s, .STRING, c2⟩], token_it := 1, stale := [⟨[], .STRING, c2⟩] } :=
    setupBody_skip _ 2 _ ⟨s, .STRING, c2⟩ rfl (by simp)
  have h3 : setupBody (pre ++ rule :: post) 2
      ({ set := { map := [(rule.config_name, ⟨rule.value, .string s⟩)] },
         tokens := [⟨s, .STRING, c2⟩], token_it := 1, stale := [⟨[], .STRING, c2⟩] }
        : SetupState N V)
      = .ok { set := { map := [(rule.config_name, ⟨rule.value, .string s⟩)] },
              tokens := [⟨s, .STRING, c2⟩], token_it := 2, stale := [⟨[], .STRING, c2⟩] } :=
    setupBody_skip _ 2 _ ⟨[], .STRING, c2⟩ rfl (by simp)
  have hrun : setupLoop (pre ++ rule :: post) 2 (g + 4)
      { tokens := [⟨f, .FLAG, c1⟩, ⟨s, .STRING, c2⟩], token_it := 0, set := { map := [] } }
      = some (.ok
          { set := { map := [(rule.config_name, ⟨rule.value, .string s⟩)] },
            tokens := [⟨s, .STRING, c2⟩], token_it := 2, stale := [⟨[], .STRING, c2⟩] })
      := by
    rw [setupLoop_step _ 2 (g + 3) _ _ (by simp) h1,
      setupLoop_step _ 2 (g + 2) _ _ (by simp) h2,
      setupLoop_step _ 2 (g + 1) _ _ (by simp) h3,
      setupLoop_done _ 2 g _ rfl]
  unfold getFlagSetup
  simp only [List.isEmpty_cons, Bool.false_eq_true, if_false, List.length_cons,
    List.length_nil, Nat.zero_add, Nat.reduceAdd]
  rw [hrun]
  rfl

/-! ## C12: a flag with its required argument -/

/-- C12, on the code. For the sequence `[FLAG f, STRING s]`, with `rule` the
first rule of the table that has `f` in its group, built to require an
argument: when `s` is in the group of none of the rules after `rule`, the
resolver returns the mapping with the one entry `rule.config_name` to
`{rule.value, s}`, as claimed; when `s` is in the group of a later rule that
sets the same configuration name, the resolver throws the
duplicate-configuration exception instead.  The rule loop has no `break` and
does not look at the type again: after the flag is erased the string stands at
`token_it` and the later rules are tried on it. -/
theorem getFlagSetup_required_argument {N V : Type} [DecidableEq N]
    (pre : List (FlagRule N V)) (rule : FlagRule N V) (post : List (FlagRule N V))
    (f s : List Char) (c1 c2 : Int) (hpre : ∀ r ∈ pre, f ∉ r.group) (hmem : f ∈ rule.group)
    (hreq : rule.needs_argument = some true) :
    ((∀ r ∈ post, s ∉ r.group) → ∀ fuel, 4 ≤ fuel →
      ∃ residual, getFlagSetup (pre ++ rule :: post) [⟨f, .FLAG, c1⟩, ⟨s, .STRING, c2⟩] fuel
        = some (.ok ([(rule.config_name, ⟨rule.value, .string s⟩)], residual))) ∧
    (∀ post1 r2 post2, post = post1 ++ r2 :: post2 → (∀ r ∈ post1, s ∉ r.group) →
      s ∈ r2.group → r2.config_name = rule.config_name → ∀ fuel, 1 ≤ fuel →
      getFlagSetup (pre ++ rule :: post) [⟨f, .FLAG, c1⟩, ⟨s, .STRING, c2⟩] fuel
        = some (.error (.thrown multipleFlagsMsg))) := by
  constructor
  · intro hpost fuel hf
    exact ⟨_, flag_string_run pre rule post f s c1 c2 true hpre hmem hreq hpost fuel hf⟩
  · intro post1 r2 post2 hsplit hpost1 hs2 hname fuel hf
    obtain ⟨g, rfl⟩ : ∃ g, fuel = g + 1 := ⟨fuel - 1, by omega⟩
    have h1 := flag_string_first pre rule post f s c1 c2 true hpre hmem hreq
    obtain ⟨a, ha⟩ := getFlagArgument_ok r2
      ([⟨s, .STRING, c2⟩] ++ [⟨[], .STRING, c2⟩] : List Token) 0 (by simp)
    rw [hsplit, rulesLoop_append_skip 2 post1 (r2 :: post2)
        ({ set := { map := [(rule.config_name, ⟨rule.value, .string s⟩)] },
           tokens := [⟨s, .STRING, c2⟩], token_it := 0, stale := [⟨[], .STRING, c2⟩] }
          : SetupState N V)
        ⟨s, .STRING, c2⟩ rfl hpost1,
      rulesLoop_duplicate 2 r2 post2
        ({ set := { map := [(rule.config_name, ⟨rule.value, .string s⟩)] },
           tokens := [⟨s, .STRING, c2⟩], token_it := 0, stale := [⟨[], .STRING, c2⟩] }
          : SetupState N V)
        ⟨s, .STRING, c2⟩ (.string a) rfl hs2 ha
        (by simp [hname, List.lookup])] at h1
    unfold getFlagSetup
    simp only [List.isEmpty_cons, Bool.false_eq_true, if_false, List.length_cons,
      List.length_nil, Nat.zero_add, Nat.reduceAdd]
    rw [← hsplit] at h1
    rw [setupLoop_error _ 2 g _ _ (by simp) h1]

theorem getFlagSetup_required_argument_witness :
    ((∀ r ∈ [FlagRule.new [['-', 'l'], ['-', '-', 'l', 'o', 'n', 'g']] ConfigName.SIZE ConfigValue.LONG false],
        ['-', 'l'] ∉ r.group) → ∀ fuel, 4 ≤ fuel →
      ∃ residual, getFlagSetup exampleRules
          [⟨['-', 's'], .FLAG, 2⟩, ⟨['-', 'l'], .STRING, 7⟩] fuel
        = some (.ok ([(ConfigName.SIZE, ⟨ConfigValue.SHORT, .string ['-', 'l']⟩)], residual))) ∧
    (∀ post1 r2 post2,
      [FlagRule.new [['-', 'l'], ['-', '-', 'l', 'o', 'n', 'g']] ConfigName.SIZE ConfigValue.LONG false]
        = post1 ++ r2 :: post2 →
      (∀ r ∈ post1, ['-', 'l'] ∉ r.group) →
      ['-', 'l'] ∈ r2.group → r2.config_name = ConfigName.SIZE → ∀ fuel, 1 ≤ fuel →
      getFlagSetup exampleRules [⟨['-', 's'], .FLAG, 2⟩, ⟨['-', 'l'], .STRING, 7⟩] fuel
        = some (.error (.thrown multipleFlagsMsg))) :=
  getFlagSetup_required_argument []
    (FlagRule.new [['-', 's'], ['-', '-', 's', 'h', 'o', 'r', 't']] ConfigName.SIZE ConfigValue.SHORT true)
    [FlagRule.new [['-', 'l'], ['-', '-', 'l', 'o', 'n', 'g']] ConfigName.SIZE ConfigValue.LONG false]
    ['-', 's'] ['-', 'l'] 2 7 (by simp) (by decide) rfl

/-- The tokens of the lines `-s "big"` and `-s "-l"`, and what the resolver
does with them under the rule table of the source: the first gives the
mapping `SIZE` to `{SHORT, "big"}`, the second throws the
duplicate-configuration exception. -/
theorem getFlagSetup_required_argument_runs :
    tokenize ['-', 's', ' ', '"', 'b', 'i', 'g', '"']
      = some (.ok ([⟨['-', 's'], .FLAG, 2⟩, ⟨['b', 'i', 'g'], .STRING, 8⟩] : List Token)) ∧
    getFlagSetup exampleRules
        ([⟨['-', 's'], .FLAG, 2⟩, ⟨['b', 'i', 'g'], .STRING, 8⟩] : List Token) 4
      = some (.ok ([(ConfigName.SIZE, ⟨ConfigValue.SHORT, .string ['b', 'i', 'g']⟩)],
          [⟨['b', 'i', 'g'], .STRING, 8⟩])) ∧
    tokenize ['-', 's', ' ', '"', '-', 'l', '"']
      = some (.ok ([⟨['-', 's'], .FLAG, 2⟩, ⟨['-', 'l'], .STRING, 7⟩] : List Token)) ∧
    getFlagSetup exampleRules
        ([⟨['-', 's'], .FLAG, 2⟩, ⟨['-', 'l'], .STRING, 7⟩] : List Token) 4
      = some (.error (.thrown multipleFlagsMsg)) :=
  ⟨rfl, rfl, rfl, rfl⟩

/-! ## C13: what is removed from the token sequence -/

/-- C13, as stated, fails: on the tokens of `-s "big"` the resolver returns
with the sequence `["big"]` left, not the empty sequence. -/
theorem residual_empty_counterexample :
    getFlagSetup exampleRules
        ([⟨['-', 's'], .FLAG, 2⟩, ⟨['b', 'i', 'g'], .STRING, 8⟩] : List Token) 4
      = some (.ok ([(ConfigName.SIZE, ⟨ConfigValue.SHORT, .string ['b', 'i', 'g']⟩)],
          [⟨['b', 'i', 'g'], .STRING, 8⟩])) ∧
    ([⟨['b', 'i', 'g'], .STRING, 8⟩] : List Token) ≠ [] :=
  ⟨rfl, by decide⟩

/-- C13, amended. When the resolver matches a `FLAG` token and takes the
`STRING` token after it as its argument, only the flag is removed.  For every
sequence `[FLAG f, STRING s]`, with `rule` the first rule of the table that has
`f` in its group, built to require an argument, and `s` in no group of the
rules that come after it, the resolver returns (on any fuel from 4 on) with
the flag stored under `rule.config_name` and the sequence `[STRING s]` left. -/
theorem flag_resolution_keeps_argument {N V : Type} [DecidableEq N]
    (pre : List (FlagRule N V)) (rule : FlagRule N V) (post : List (FlagRule N V))
    (f s : List Char) (c1 c2 : Int) (hpre : ∀ r ∈ pre, f ∉ r.group) (hmem : f ∈ rule.group)
    (hreq : rule.needs_argument = some true) (hpost : ∀ r ∈ post, s ∉ r.group)
    (fuel : Nat) (hf : 4 ≤ fuel) :
    getFlagSetup (pre ++ rule :: post) [⟨f, .FLAG, c1⟩, ⟨s, .STRING, c2⟩] fuel
      = some (.ok ([(rule.config_name, ⟨rule.value, .string s⟩)], [⟨s, .STRING, c2⟩])) :=
  flag_string_run pre rule post f s c1 c2 true hpre hmem hreq hpost fuel hf

theorem flag_resolution_keeps_argument_witness :
    getFlagSetup exampleRules [⟨['-', 's'], .FLAG, 2⟩, ⟨['b', 'i', 'g'], .STRING, 8⟩] 4
      = some (.ok ([(ConfigName.SIZE, ⟨ConfigValue.SHORT, .string ['b', 'i', 'g']⟩)],
          [⟨['b', 'i', 'g'], .STRING, 8⟩])) :=
  flag_resolution_keeps_argument []
    (FlagRule.new [['-', 's'], ['-', '-', 's', 'h', 'o', 'r', 't']] ConfigName.SIZE ConfigValue.SHORT true)
    [FlagRule.new [['-', 'l'], ['-', '-', 'l', 'o', 'n', 'g']] ConfigName.SIZE ConfigValue.LONG false]
    ['-', 's'] ['b', 'i', 'g'] 2 8 (by simp) (by decide) rfl (by decide) 4 (by decide)

/-! ## C14: a required argument that is missing -/

/-- C14, on the code. For a rule built to require an argument, at a flag that
is not followed by a `STRING` token (it is the last token, or the next token
has another type), `getFlagArgument` throws nothing and returns the empty
string, and the pass of the rule loop stores the flag with that argument under
the rule's configuration name and erases the flag (`slot` is what the erasure
leaves behind the end of the vector): no missing-argument error is raised. -/
theorem required_argument_missing {N V : Type} [DecidableEq N] (rule : FlagRule N V)
    (tokens : List Token) (it : Nat) (t : Token) (set : FlagSet N V)
    (hreq : rule.needs_argument = some true) (ht : tokens[it]? = some t)
    (hty : t.type = .FLAG) (hmem : t.content ∈ rule.group)
    (hnext : ∀ u, tokens[it + 1]? = some u → u.type ≠ .STRING)
    (hfree : set.map.lookup rule.config_name = none) :
    getFlagArgument rule tokens it tokens.length = .ok (.string []) ∧
    ∃ slot, rulesLoop tokens.length [rule] { tokens := tokens, token_it := it, set := set }
      = .ok { tokens := tokens.eraseIdx it, token_it := it,
              set := { map := set.map ++ [(rule.config_name, ⟨rule.value, .string []⟩)] },
              stale := [slot] } := by
  have harg : getFlagArgument rule tokens it tokens.length = .ok (.string []) := by
    unfold getFlagArgument
    simp only [hreq]
    have h := nextArgument_eq tokens it t ht hty
    cases hn : tokens[it + 1]? with
    | none => rw [hn] at h; simpa using h
    | some u => rw [hn] at h; simpa [hnext u hn] using h
  refine ⟨harg, vacated tokens it t, ?_⟩
  rw [rulesLoop_match tokens.length rule []
    ({ tokens := tokens, token_it := it, set := set } : SetupState N V) t (.string [])
    ht hmem (by simpa using harg) hfree]
  rfl

theorem required_argument_missing_witness :
    getFlagArgument (FlagRule.new [['-', 's'], ['-', '-', 's', 'h', 'o', 'r', 't']] ConfigName.SIZE ConfigValue.SHORT true) ([⟨['-', 's'], .FLAG, 2⟩] : List Token) 0 ([⟨['-', 's'], .FLAG, 2⟩] : List Token).length = .ok (.string []) ∧
    ∃ slot, rulesLoop ([⟨['-', 's'], .FLAG, 2⟩] : List Token).length [(FlagRule.new [['-', 's'], ['-', '-', 's', 'h', 'o', 'r', 't']] ConfigName.SIZE ConfigValue.SHORT true)]
        { tokens := ([⟨['-', 's'], .FLAG, 2⟩] : List Token), token_it := 0, set := ({ map := [] } : FlagSet ConfigName ConfigValue) }
      = .ok { tokens := ([⟨['-', 's'], .FLAG, 2⟩] : List Token).eraseIdx 0, token_it := 0,
              set := { map := ({ map := [] } : FlagSet ConfigName ConfigValue).map ++ [((FlagRule.new [['-', 's'], ['-', '-', 's', 'h', 'o', 'r', 't']] ConfigName.SIZE ConfigValue.SHORT true).config_name,
                ⟨(FlagRule.new [['-', 's'], ['-', '-', 's', 'h', 'o', 'r', 't']] ConfigName.SIZE ConfigValue.SHORT true).value, .string []⟩)] },
              stale := [slot] } :=
  required_argument_missing (FlagRule.new [['-', 's'], ['-', '-', 's', 'h', 'o', 'r', 't']] ConfigName.SIZE ConfigValue.SHORT true) ([⟨['-', 's'], .FLAG, 2⟩] : List Token) 0 ⟨['-', 's'], .FLAG, 2⟩ ({ map := [] } : FlagSet ConfigName ConfigValue) rfl rfl rfl (by decide)
    (by intro u hu; cases hu) rfl

/-- The whole call on the tokens of `-s x` and of `-s`, under the rule table
of the source, where `-s` requires an argument: on `-s x` the resolver returns
the entry with the empty string as argument; on `-s` it stores that entry too,
then meets the slot that the erasure vacated and throws the
duplicate-configuration exception.  A missing-argument error is raised in
neither case. -/
theorem required_argument_missing_runs :
    getFlagSetup exampleRules
        ([⟨['-', 's'], .FLAG, 2⟩, ⟨['x'], .IDENTIFIER, 4⟩] : List Token) 4
      = some (.ok ([(ConfigName.SIZE, ⟨ConfigValue.SHORT, .string []⟩)],
          [⟨['x'], .IDENTIFIER, 4⟩])) ∧
    getFlagSetup exampleRules ([⟨['-', 's'], .FLAG, 2⟩] : List Token) 2
      = some (.error (.thrown multipleFlagsMsg)) :=
  ⟨rfl, rfl⟩

/-! ## C15: a rule that forbids an argument -/

/-- C15, as stated, fails: for the rule of `-l`, built with the default
`needs_arg = false`, the argument returned at the flag of `[-l, "a"]` is the
content `a` of the string that follows, and at the flag of `[-l, x]` it is the
empty string; neither is the boolean `true`. -/
theorem forbidden_argument_counterexample :
    (FlagRule.new [['-', 'l'], ['-', '-', 'l', 'o', 'n', 'g']] ConfigName.SIZE ConfigValue.LONG false).needs_argument = some false ∧
    getFlagArgument (FlagRule.new [['-', 'l'], ['-', '-', 'l', 'o', 'n', 'g']] ConfigName.SIZE ConfigValue.LONG false)
        ([⟨['-', 'l'], .FLAG, 2⟩, ⟨['a'], .STRING, 6⟩] : List Token) 0 2 = .ok (.string ['a']) ∧
    flag_arg.string ['a'] ≠ flag_arg.bool true ∧
    getFlagArgument (FlagRule.new [['-', 'l'], ['-', '-', 'l', 'o', 'n', 'g']] ConfigName.SIZE ConfigValue.LONG false)
        ([⟨['-', 'l'], .FLAG, 2⟩, ⟨['x'], .IDENTIFIER, 4⟩] : List Token) 0 2 = .ok (.string []) ∧
    flag_arg.string [] ≠ flag_arg.bool true ∧
    getFlagSetup exampleRules ([⟨['-', 'l'], .FLAG, 2⟩, ⟨['x'], .IDENTIFIER, 4⟩] : List Token) 4
      = some (.ok ([(ConfigName.SIZE, ⟨ConfigValue.LONG, .string []⟩)],
          [⟨['x'], .IDENTIFIER, 4⟩])) :=
  ⟨rfl, rfl, by decide, rfl, by decide, rfl⟩

/-- C15, amended. Take any rule table, any state of the scanning loop and a
`FLAG` token at `token_it` whose first rule in the table, `rule`, was built
with `needs_argument = false`, while the configuration name of `rule` is not
set yet.  The argument stored in the resolved flag is a string, never the
boolean `true`: it is the empty string when what follows the flag is not a
`STRING` (or the flag is the last token).  The resolution erases the flag
alone (`slot` is what the erasure leaves behind the end of the vector): the
token that followed the flag now stands at the place of the flag, and the rest
of the rule table is tried on it in the same pass; when what stands at that
place is known to none of those rules the iteration ends there, with the token
that followed the flag still in the sequence. -/
theorem forbidden_argument {N V : Type} [DecidableEq N] (pre : List (FlagRule N V))
    (rule : FlagRule N V) (post : List (FlagRule N V)) (s : SetupState N V) (t : Token)
    (hforb : rule.needs_argument = some false) (ht : s.tokens[s.token_it]? = some t)
    (hty : t.type = .FLAG) (hpre : ∀ r ∈ pre, t.content ∉ r.group)
    (hmem : t.content ∈ rule.group) (hfree : s.set.map.lookup rule.config_name = none) :
    ∃ a slot,
      getFlagArgument rule (s.tokens ++ s.stale) s.token_it (s.tokens ++ s.stale).length
        = .ok (.string a) ∧
      flag_arg.string a ≠ flag_arg.bool true ∧
      ((∀ u, (s.tokens ++ s.stale)[s.token_it + 1]? = some u → u.type ≠ .STRING) → a = []) ∧
      rulesLoop (s.tokens ++ s.stale).length (pre ++ rule :: post) s
        = rulesLoop (s.tokens ++ s.stale).length post
            { tokens := s.tokens.eraseIdx s.token_it, token_it := s.token_it,
              set := { map := s.set.map ++ [(rule.config_name, ⟨rule.value, .string a⟩)] },
              stale := slot :: s.stale } ∧
      (s.tokens.eraseIdx s.token_it)[s.token_it]? = s.tokens[s.token_it + 1]? ∧
      ((∀ u, (s.tokens.eraseIdx s.token_it ++ slot :: s.stale)[s.token_it]? = some u →
            ∀ r ∈ post, u.content ∉ r.group) →
        setupBody (pre ++ rule :: post) (s.tokens ++ s.stale).length s
          = .ok { tokens := s.tokens.eraseIdx s.token_it, token_it := s.token_it,
                  set := { map := s.set.map ++ [(rule.config_name, ⟨rule.value, .string a⟩)] },
                  stale := slot :: s.stale }) := by
  have hlt : s.token_it < s.tokens.length := (List.getElem?_eq_some.mp ht).1
  have hget : (s.tokens ++ s.stale)[s.token_it]? = some t := by
    rw [List.getElem?_append_left hlt]; exact ht
  have hd : deref (s.tokens ++ s.stale) s.token_it = .ok t := deref_of_getElem? _ _ _ hget
  have harg : getFlagArgument rule (s.tokens ++ s.stale) s.token_it (s.tokens ++ s.stale).length
      = .ok (.string (match (s.tokens ++ s.stale)[s.token_it + 1]? with
        | some u => if u.type = .STRING then u.content else []
        | none => [])) := by
    unfold getFlagArgument
    simp only [hforb]
    exact nextArgument_eq (s.tokens ++ s.stale) s.token_it t hget hty
  have hloop : rulesLoop (s.tokens ++ s.stale).length (pre ++ rule :: post) s
      = rulesLoop (s.tokens ++ s.stale).length post
          { tokens := s.tokens.eraseIdx s.token_it, token_it := s.token_it,
            set := { map := s.set.map ++ [(rule.config_name, ⟨rule.value, .string
              (match (s.tokens ++ s.stale)[s.token_it + 1]? with
                | some u => if u.type = .STRING then u.content else []
                | none => [])⟩)] },
            stale := vacated s.tokens s.token_it t :: s.stale } := by
    rw [rulesLoop_append_skip _ pre (rule :: post) s t hd hpre,
      rulesLoop_match _ rule post s t _ ht hmem harg hfree]
  refine ⟨_, vacated s.tokens s.token_it t, harg, by simp, fun hnext => ?_, hloop, ?_,
    fun hpost => ?_⟩
  · cases hn : (s.tokens ++ s.stale)[s.token_it + 1]? with
    | none => rfl
    | some u => simp [hnext u hn]
  · exact List.getElem?_eraseIdx_of_ge s.tokens s.token_it s.token_it (Nat.le_refl _)
  · have hlen : s.token_it
        < (s.tokens.eraseIdx s.token_it ++ vacated s.tokens s.token_it t :: s.stale).length := by
      rw [length_erase _ _ _ _ hlt, List.length_append]; omega
    have hu := List.getElem?_eq_getElem hlen
    simp only [setupBody, hd, hty, ne_eq, not_true_eq_false, if_false]
    rw [hloop]
    exact rulesLoop_no_match _ post _ _ (deref_of_getElem? _ _ _ hu) (hpost _ hu)

theorem forbidden_argument_witness :
    ∃ a slot, getFlagArgument
          (FlagRule.new [['-', 'l'], ['-', '-', 'l', 'o', 'n', 'g']] ConfigName.SIZE ConfigValue.LONG false)
          ([⟨['-', 'l'], .FLAG, 2⟩, ⟨['x'], .IDENTIFIER, 4⟩] : List Token) 0 2
        = .ok (.string a) ∧
      a = [] ∧
      setupBody exampleRules 2
          { tokens := [⟨['-', 'l'], .FLAG, 2⟩, ⟨['x'], .IDENTIFIER, 4⟩], token_it := 0,
            set := { map := [] } }
        = .ok { tokens := [⟨['x'], .IDENTIFIER, 4⟩], token_it := 0,
                set := { map := [(ConfigName.SIZE, ⟨ConfigValue.LONG, .string a⟩)] },
                stale := [slot] } :=
  (forbidden_argument
    [FlagRule.new [['-', 's'], ['-', '-', 's', 'h', 'o', 'r', 't']] ConfigName.SIZE ConfigValue.SHORT true]
    (FlagRule.new [['-', 'l'], ['-', '-', 'l', 'o', 'n', 'g']] ConfigName.SIZE ConfigValue.LONG false) []
    ({ tokens := [⟨['-', 'l'], .FLAG, 2⟩, ⟨['x'], .IDENTIFIER, 4⟩], token_it := 0,
       set := { map := [] } } : SetupState ConfigName ConfigValue)
    ⟨['-', 'l'], .FLAG, 2⟩ rfl rfl rfl (by decide) (by decide) rfl).imp
    (fun _ h => h.imp
      (fun _ h => ⟨h.1, h.2.2.1 (by decide), h.2.2.2.2.2 (fun _ _ _ hr => nomatch hr)⟩))

/-! ## C17: two flags for one configuration name -/

theorem duplicated_lt {N V : Type} [DecidableEq N] (rules : List (FlagRule N V)) (n : N)
    (end_it : Nat) (s : SetupState N V) (hJ : Duplicated rules n end_it s) :
    s.token_it < s.tokens.length := by
  have hne : s.tokens.drop s.token_it ≠ [] := by
    rcases hJ.2.2 with ⟨a, b, hsub, _⟩ | ⟨_, a, ha, _⟩
    · intro h0
      rw [h0] at hsub
      cases hsub
    · intro h0
      rw [h0] at ha
      cases ha
  by_contra hge
  exact hne (List.drop_of_length_le (by omega))

theorem drop_eraseIdx_self (l : List Token) (i : Nat) (h : i < l.length) :
    (l.eraseIdx i).drop i = l.drop (i + 1) := by
  rw [List.eraseIdx_eq_take_drop_succ]
  have hl : (l.take i).length = i := by
    rw [List.length_take]; omega
  exact List.drop_left' hl

/-- Dropping the first of the tokens still to be scanned keeps the invariant,
when that token is not a flag for `n` and what was set stays set, or when it
is the flag by which `n` has just been set. -/
theorem duplicated_tail {N V : Type} [DecidableEq N] (rules : List (FlagRule N V)) (n : N)
    (t : Token) (rest : List Token) (m m' : List (N × Flag V))
    (h : (∃ a b, [a, b].Sublist (t :: rest) ∧ a.Sets rules n ∧ b.Sets rules n) ∨
      ((m.lookup n).isSome = true ∧ ∃ a ∈ t :: rest, a.Sets rules n))
    (hm : (m.lookup n).isSome = true → (m'.lookup n).isSome = true)
    (ht : ¬ t.Sets rules n ∨ ((m.lookup n).isSome = false ∧ (m'.lookup n).isSome = true)) :
    (∃ a b, [a, b].Sublist rest ∧ a.Sets rules n ∧ b.Sets rules n) ∨
      ((m'.lookup n).isSome = true ∧ ∃ a ∈ rest, a.Sets rules n) := by
  rcases h with ⟨a, b, hsub, ha, hb⟩ | ⟨hset, a, ha, hP⟩
  · cases hsub with
    | cons _ h1 => exact Or.inl ⟨a, b, h1, ha, hb⟩
    | cons₂ _ h1 =>
      rcases ht with ht | ⟨_, ht⟩
      · exact absurd ha ht
      · exact Or.inr ⟨ht, b, List.singleton_sublist.mp h1, hb⟩
  · rcases ht with ht | ⟨ht, _⟩
    · rcases List.mem_cons.mp ha with rfl | ha
      · exact absurd hP ht
      · exact Or.inr ⟨hm hset, a, ha, hP⟩
    · rw [ht] at hset; cases hset

/-- From a state of `Duplicated`, a pass of the rule loop throws the
duplicate-configuration exception or ends in such a state again, with no more
tokens left to scan than before, and with fewer when one of the rules tried
knows the token at `token_it`. -/
theorem rulesLoop_duplicated {N V : Type} [DecidableEq N] (rules : List (FlagRule N V))
    (n : N) (end_it : Nat) (rs : List (FlagRule N V)) (hrs : ∀ r ∈ rs, r ∈ rules)
    (s : SetupState N V) (hJ : Duplicated rules n end_it s) :
    rulesLoop end_it rs s = .error (.thrown multipleFlagsMsg) ∨
    ∃ s', rulesLoop end_it rs s = .ok s' ∧ Duplicated rules n end_it s' ∧
      s'.tokens.length - s'.token_it ≤ s.tokens.length - s.token_it ∧
      ((∃ t, s.tokens[s.token_it]? = some t ∧ ∃ r ∈ rs, t.content ∈ r.group) →
        s'.tokens.length - s'.token_it < s.tokens.length - s.token_it) := by
  induction rs generalizing s with
  | nil =>
    refine Or.inr ⟨s, rfl, hJ, Nat.le_refl _, ?_⟩
    rintro ⟨_, _, r, hr, _⟩
    cases hr
  | cons rule rest ih =>
    have hlt := duplicated_lt rules n end_it s hJ
    have hget : s.tokens[s.token_it]? = some s.tokens[s.token_it] := List.getElem?_eq_getElem hlt
    have hd : deref (s.tokens ++ s.stale) s.token_it = .ok s.tokens[s.token_it] :=
      deref_of_getElem? _ _ _ (by rw [List.getElem?_append_left hlt]; exact hget)
    have hdrop : s.tokens.drop s.token_it
        = s.tokens[s.token_it] :: s.tokens.drop (s.token_it + 1) :=
      List.drop_eq_getElem_cons hlt
    by_cases hm : s.tokens[s.token_it].content ∈ rule.group
    · have hlen : s.token_it < (s.tokens ++ s.stale).length := by
        rw [List.length_append]; omega
      obtain ⟨a, ha⟩ := getFlagArgument_ok rule (s.tokens ++ s.stale) s.token_it hlen
      rw [hJ.1] at ha
      cases hset : s.set.map.lookup rule.config_name with
      | some fl =>
        exact Or.inl (rulesLoop_duplicate end_it rule rest s _ (.string a) hd hm ha
          (by simp [hset]))
      | none =>
        rw [rulesLoop_match end_it rule rest s _ (.string a) hget hm ha hset]
        have hJ1 : Duplicated rules n end_it
            ({ tokens := s.tokens.eraseIdx s.token_it, token_it := s.token_it,
               stale := vacated s.tokens s.token_it s.tokens[s.token_it] :: s.stale,
               set := { map := s.set.map ++
                 [(rule.config_name, { value := rule.value, arg := .string a })] } }
              : SetupState N V) := by
          refine ⟨?_, ?_, ?_⟩
          · show (s.tokens.eraseIdx s.token_it ++ _ :: s.stale).length = end_it
            rw [length_erase _ _ _ _ hlt]; exact hJ.1
          · show ∀ t ∈ (s.tokens.eraseIdx s.token_it).drop s.token_it, _
            rw [drop_eraseIdx_self _ _ hlt]
            intro t ht
            exact hJ.2.1 t (by rw [hdrop]; exact List.mem_cons_of_mem _ ht)
          · show (∃ a b, [a, b].Sublist ((s.tokens.eraseIdx s.token_it).drop s.token_it) ∧ _) ∨
              (((s.set.map ++ [(rule.config_name, _)]).lookup n).isSome = true ∧
                ∃ a ∈ (s.tokens.eraseIdx s.token_it).drop s.token_it, _)
            rw [drop_eraseIdx_self _ _ hlt]
            have h3 := hJ.2.2
            rw [hdrop] at h3
            refine duplicated_tail rules n _ _ s.set.map _ h3 ?_ ?_
            · intro hs
              cases hl : s.set.map.lookup n with
              | none => rw [hl] at hs; cases hs
              | some v => simp [List.lookup_append, hl]
            · by_cases hP : s.tokens[s.token_it].Sets rules n
              · have hname : rule.config_name = n :=
                  hP.2 rule (hrs rule (List.mem_cons_self _ _)) hm
                right
                rw [← hname]
                exact ⟨by simp [hset], by simp [List.lookup_append, hset]⟩
              · exact Or.inl hP
        have hmeas : (s.tokens.eraseIdx s.token_it).length - s.token_it
            < s.tokens.length - s.token_it := by
          rw [List.length_eraseIdx_of_lt hlt]; omega
        rcases ih (fun r hr => hrs r (List.mem_cons_of_mem _ hr)) _ hJ1 with h | ⟨s', h1, h2, h3, _⟩
        · exact Or.inl h
        · refine Or.inr ⟨s', h1, h2, ?_, fun _ => ?_⟩
          · exact Nat.le_of_lt (Nat.lt_of_le_of_lt h3 hmeas)
          · exact Nat.lt_of_le_of_lt h3 hmeas
    · rw [rulesLoop_skip end_it rule rest s _ hd hm]
      rcases ih (fun r hr => hrs r (List.mem_cons_of_mem _ hr)) s hJ with h | ⟨s', h1, h2, h3, h4⟩
      · exact Or.inl h
      · refine Or.inr ⟨s', h1, h2, h3, ?_⟩
        rintro ⟨t, ht, r, hr, hmem⟩
        rw [hget] at ht
        injection ht with ht
        subst ht
        rcases List.mem_cons.mp hr with rfl | hr
        · exact absurd hmem hm
        · exact h4 ⟨_, hget, r, hr, hmem⟩

/-- From a state of `Duplicated`, an iteration of the scanning loop throws the
duplicate-configuration exception or ends in such a state again with fewer
tokens left to scan. -/
theorem setupBody_duplicated {N V : Type} [DecidableEq N] (rules : List (FlagRule N V))
    (n : N) (end_it : Nat) (s : SetupState N V) (hJ : Duplicated rules n end_it s) :
    setupBody rules end_it s = .error (.thrown multipleFlagsMsg) ∨
    ∃ s', setupBody rules end_it s = .ok s' ∧ Duplicated rules n end_it s' ∧
      s'.tokens.length - s'.token_it < s.tokens.length - s.token_it := by
  have hlt := duplicated_lt rules n end_it s hJ
  have hget : s.tokens[s.token_it]? = some s.tokens[s.token_it] := List.getElem?_eq_getElem hlt
  have hd : deref (s.tokens ++ s.stale) s.token_it = .ok s.tokens[s.token_it] :=
    deref_of_getElem? _ _ _ (by rw [List.getElem?_append_left hlt]; exact hget)
  have hdrop : s.tokens.drop s.token_it
      = s.tokens[s.token_it] :: s.tokens.drop (s.token_it + 1) :=
    List.drop_eq_getElem_cons hlt
  by_cases hty : s.tokens[s.token_it].type = .FLAG
  · have hb : setupBody rules end_it s = rulesLoop end_it rules s := by
      simp only [setupBody, hd, hty, ne_eq, not_true_eq_false, if_false]
    rw [hb]
    obtain ⟨r, hr, hmem⟩ := hJ.2.1 _ (by rw [hdrop]; exact List.mem_cons_self _ _) hty
    rcases rulesLoop_duplicated rules n end_it rules (fun _ h => h) s hJ with
      h | ⟨s', h1, h2, _, h4⟩
    · exact Or.inl h
    · exact Or.inr ⟨s', h1, h2, h4 ⟨_, hget, r, hr, hmem⟩⟩
  · rw [setupBody_skip rules end_it s _ hd hty]
    refine Or.inr ⟨_, rfl, ⟨hJ.1, ?_, ?_⟩, ?_⟩
    · intro t ht
      exact hJ.2.1 t (by rw [hdrop]; exact List.mem_cons_of_mem _ ht)
    · have h3 := hJ.2.2
      rw [hdrop] at h3
      exact duplicated_tail rules n _ _ s.set.map s.set.map h3 (fun h => h)
        (Or.inl (fun hP => hty hP.1))
    · show s.tokens.length - (s.token_it + 1) < s.tokens.length - s.token_it
      omega

/-- From a state of `Duplicated` the scanning loop ends by throwing the
duplicate-configuration exception, within as many iterations as there are
tokens left to scan. -/
theorem setupLoop_duplicated {N V : Type} [DecidableEq N] (rules : List (FlagRule N V))
    (n : N) (end_it : Nat) (m : Nat) (s : SetupState N V) (hJ : Duplicated rules n end_it s)
    (hm : s.tokens.length - s.token_it ≤ m) (fuel : Nat) (hf : m < fuel) :
    setupLoop rules end_it fuel s = some (.error (.thrown multipleFlagsMsg)) := by
  induction m generalizing s fuel with
  | zero =>
    have := duplicated_lt rules n end_it s hJ
    omega
  | succ m ih =>
    obtain ⟨f, rfl⟩ : ∃ f, fuel = f + 1 := ⟨fuel - 1, by omega⟩
    have hlt := duplicated_lt rules n end_it s hJ
    have hne : s.token_it ≠ end_it := by
      have := hJ.1
      rw [List.length_append] at this
      omega
    rcases setupBody_duplicated rules n end_it s hJ with h | ⟨s', h1, h2, h3⟩
    · exact setupLoop_error rules end_it f s _ hne h
    · rw [setupLoop_step rules end_it f s s' hne h1]
      exact ih s' h2 (by omega) f (by omega)

/-- C17. For every token sequence whose `FLAG` tokens are all known to some
rule and which holds two `FLAG` tokens `ti` and `tj` whose rules set the same
configuration name `n` (every rule that has the flag in its group sets `n`;
with groups that do not overlap, that is the rule of the flag), in whichever
order the two stand and whatever stands around them, the resolver throws the
duplicate-configuration exception of `FlagSet::setFlag`, on any fuel greater
than the length of the sequence. -/
theorem getFlagSetup_duplicate {N V : Type} [DecidableEq N] (rules : List (FlagRule N V))
    (l1 l2 l3 : List Token) (ti tj : Token) (n : N)
    (hall : ∀ t ∈ l1 ++ ti :: (l2 ++ tj :: l3), t.type = .FLAG →
      ∃ r ∈ rules, t.content ∈ r.group)
    (hti : ti.type = .FLAG) (htj : tj.type = .FLAG)
    (hni : ∀ r ∈ rules, ti.content ∈ r.group → r.config_name = n)
    (hnj : ∀ r ∈ rules, tj.content ∈ r.group → r.config_name = n)
    (fuel : Nat) (hf : (l1 ++ ti :: (l2 ++ tj :: l3)).length < fuel) :
    getFlagSetup rules (l1 ++ ti :: (l2 ++ tj :: l3)) fuel
      = some (.error (.thrown multipleFlagsMsg)) := by
  have hJ : Duplicated rules n (l1 ++ ti :: (l2 ++ tj :: l3)).length
      ({ tokens := l1 ++ ti :: (l2 ++ tj :: l3), token_it := 0, set := { map := [] } }
        : SetupState N V) := by
    refine ⟨by simp, fun t ht => hall t (by simpa using ht), Or.inl ⟨ti, tj, ?_, ⟨hti, hni⟩,
      ⟨htj, hnj⟩⟩⟩
    show [ti, tj].Sublist (l1 ++ ti :: (l2 ++ tj :: l3))
    refine List.Sublist.trans ?_ (List.sublist_append_right l1 _)
    exact List.Sublist.cons₂ _ (List.singleton_sublist.mpr (by simp))
  have hrun := setupLoop_duplicated rules n _ (l1 ++ ti :: (l2 ++ tj :: l3)).length _ hJ
    (Nat.sub_le _ _) fuel hf
  unfold getFlagSetup
  have he : (l1 ++ ti :: (l2 ++ tj :: l3)).isEmpty = false := by simp
  simp only [he, hrun]
  rfl

theorem getFlagSetup_duplicate_witness :
    getFlagSetup exampleRules
        (([] : List Token) ++ ⟨['-', 's'], .FLAG, 2⟩ :: (([] : List Token)
          ++ ⟨['-', 'l'], .FLAG, 5⟩ :: []))
        3
      = some (.error (.thrown multipleFlagsMsg)) :=
  getFlagSetup_duplicate exampleRules [] [] [] ⟨['-', 's'], .FLAG, 2⟩ ⟨['-', 'l'], .FLAG, 5⟩
    ConfigName.SIZE (by decide) rfl rfl (by decide) (by decide) 3 (by decide)

/-- The duplicate-configuration exception on the tokens of `-s -l`, of
`-l -s`, of `-s -s` and of `-s x -l`, under the rule table of the source. -/
theorem getFlagSetup_duplicate_runs :
    getFlagSetup exampleRules
        ([⟨['-', 's'], .FLAG, 2⟩, ⟨['-', 'l'], .FLAG, 5⟩] : List Token) 3
      = some (.error (.thrown multipleFlagsMsg)) ∧
    getFlagSetup exampleRules
        ([⟨['-', 'l'], .FLAG, 2⟩, ⟨['-', 's'], .FLAG, 5⟩] : List Token) 3
      = some (.error (.thrown multipleFlagsMsg)) ∧
    getFlagSetup exampleRules
        ([⟨['-', 's'], .FLAG, 2⟩, ⟨['-', 's'], .FLAG, 5⟩] : List Token) 3
      = some (.error (.thrown multipleFlagsMsg)) ∧
    getFlagSetup exampleRules
        ([⟨['-', 's'], .FLAG, 2⟩, ⟨['x'], .IDENTIFIER, 4⟩, ⟨['-', 'l'], .FLAG, 7⟩] : List Token) 4
      = some (.error (.thrown multipleFlagsMsg)) :=
  ⟨rfl, rfl, rfl, rfl⟩

/-! ## C16: a rule whose argument is optional -/

/-- C16. For a rule with `needs_argument` absent, `getFlagArgument` at a flag
of the token sequence returns the content of the token right after the flag
when that token exists and is a `STRING`, and the empty string otherwise, also
when the flag is the last token. -/
theorem getFlagArgument_optional {N V : Type} (rule : FlagRule N V) (tokens : List Token)
    (it : Nat) (t : Token) (hopt : rule.needs_argument = none) (ht : tokens[it]? = some t)
    (hty : t.type = .FLAG) :
    getFlagArgument rule tokens it tokens.length =
      .ok (.string (match tokens[it + 1]? with
        | some u => if u.type = .STRING then u.content else []
        | none => [])) ∧
    (it + 1 = tokens.length → getFlagArgument rule tokens it tokens.length = .ok (.string [])) := by
  have h : getFlagArgument rule tokens it tokens.length =
      .ok (.string (match tokens[it + 1]? with
        | some u => if u.type = .STRING then u.content else []
        | none => [])) := by
    unfold getFlagArgument
    simp only [hopt, if_true]
    exact nextArgument_eq tokens it t ht hty
  refine ⟨h, fun hlast => ?_⟩
  rw [h]
  have hnone : tokens[it + 1]? = none := by
    rw [List.getElem?_eq_none_iff]; omega
  rw [hnone]

theorem getFlagArgument_optional_witness :
    getFlagArgument
        ({ group := [['-', 'o']], config_name := ConfigName.SIZE, value := ConfigValue.LONG,
           needs_argument := none } : FlagRule ConfigName ConfigValue)
        ([⟨['-', 'o'], .FLAG, 2⟩, ⟨['h', 'i'], .STRING, 7⟩] : List Token) 0
        ([⟨['-', 'o'], .FLAG, 2⟩, ⟨['h', 'i'], .STRING, 7⟩] : List Token).length =
      .ok (.string (match ([⟨['-', 'o'], .FLAG, 2⟩, ⟨['h', 'i'], .STRING, 7⟩] : List Token)[0 + 1]? with
        | some u => if u.type = .STRING then u.content else []
        | none => [])) ∧
    (0 + 1 = ([⟨['-', 'o'], .FLAG, 2⟩, ⟨['h', 'i'], .STRING, 7⟩] : List Token).length →
      getFlagArgument
        ({ group := [['-', 'o']], config_name := ConfigName.SIZE, value := ConfigValue.LONG,
           needs_argument := none } : FlagRule ConfigName ConfigValue)
        ([⟨['-', 'o'], .FLAG, 2⟩, ⟨['h', 'i'], .STRING, 7⟩] : List Token) 0
        ([⟨['-', 'o'], .FLAG, 2⟩, ⟨['h', 'i'], .STRING, 7⟩] : List Token).length = .ok (.string [])) :=
  getFlagArgument_optional _ ([⟨['-', 'o'], .FLAG, 2⟩, ⟨['h', 'i'], .STRING, 7⟩] : List Token) 0
    ⟨['-', 'o'], .FLAG, 2⟩ rfl rfl rfl

/-! ## C19: a token sequence without flags -/

/-- The scanning loop walks over tokens that are not flags. -/
theorem setupLoop_walk {N V : Type} [DecidableEq N] (rules : List (FlagRule N V))
    (tokens : List Token) (set : FlagSet N V) (h : ∀ t ∈ tokens, t.type ≠ .FLAG)
    (k it : Nat) (hk : it + k = tokens.length) (fuel : Nat) (hf : k < fuel) :
    setupLoop rules tokens.length fuel { tokens := tokens, token_it := it, set := set }
      = some (.ok { tokens := tokens, token_it := tokens.length, set := set }) := by
  induction k generalizing it fuel with
  | zero =>
    obtain ⟨f, rfl⟩ : ∃ f, fuel = f + 1 := ⟨fuel - 1, by omega⟩
    have e : it = tokens.length := by omega
    subst e
    exact setupLoop_done rules _ f _ rfl
  | succ k ih =>
    obtain ⟨f, rfl⟩ : ∃ f, fuel = f + 1 := ⟨fuel - 1, by omega⟩
    have hlt : it < tokens.length := by omega
    have hd : deref (tokens ++ []) it = .ok tokens[it] :=
      deref_of_getElem? _ it _ (by rw [List.append_nil]; exact List.getElem?_eq_getElem hlt)
    have hb := setupBody_skip rules tokens.length
      { tokens := tokens, token_it := it, set := set } tokens[it] hd
      (h _ (List.getElem_mem hlt))
    rw [setupLoop_step rules _ f _ _ (by simp; omega) hb]
    exact ih (it + 1) (by omega) f (by omega)

/-- C19. For every token sequence without a `FLAG` token, the empty one
included, and every rule table, the resolver returns an empty map and leaves
the sequence as it was given (on any fuel greater than the length of the
sequence). -/
theorem getFlagSetup_no_flag {N V : Type} [DecidableEq N] (rules : List (FlagRule N V))
    (tokens : List Token) (fuel : Nat) (h : ∀ t ∈ tokens, t.type ≠ .FLAG)
    (hf : tokens.length < fuel) :
    getFlagSetup rules tokens fuel = some (.ok ([], tokens)) := by
  unfold getFlagSetup
  by_cases he : tokens.isEmpty = true
  · simp [he]
  · simp only [he]
    rw [setupLoop_walk rules tokens { map := [] } h tokens.length 0 (by omega) fuel hf]
    rfl

theorem getFlagSetup_no_flag_witness :
    getFlagSetup exampleRules [⟨['a', 'b'], .IDENTIFIER, 2⟩, ⟨['-', 's'], .STRING, 7⟩] 3
      = some (.ok ([], [⟨['a', 'b'], .IDENTIFIER, 2⟩, ⟨['-', 's'], .STRING, 7⟩])) :=
  getFlagSetup_no_flag exampleRules [⟨['a', 'b'], .IDENTIFIER, 2⟩, ⟨['-', 's'], .STRING, 7⟩] 3
    (by decide) (by decide)

/-! ## C18: a flag that no rule knows -/

/-- In front of a flag that no rule knows the scanning loop never ends. -/
theorem setupLoop_stuck {N V : Type} [DecidableEq N] (rules : List (FlagRule N V))
    (end_it : Nat) (s : SetupState N V) (t : Token) (hne : s.token_it ≠ end_it)
    (ht : deref (s.tokens ++ s.stale) s.token_it = .ok t) (hty : t.type = .FLAG)
    (hno : ∀ r ∈ rules, t.content ∉ r.group) (fuel : Nat) :
    setupLoop rules end_it fuel s = none := by
  induction fuel with
  | zero => rfl
  | succ f ih =>
    rw [setupLoop_step rules end_it f s s hne
      (setupBody_unknown_flag rules end_it s t ht hty hno)]
    exact ih

/-- C18, on the code. When the first `FLAG` token of the sequence has a
content that is in no rule's group, the resolver never returns: the scanning
loop reaches that token and stays on it, whatever fuel it is given. -/
theorem getFlagSetup_unknown_flag {N V : Type} [DecidableEq N] (rules : List (FlagRule N V))
    (pre : List Token) (t : Token) (post : List Token) (fuel : Nat)
    (hpre : ∀ u ∈ pre, u.type ≠ .FLAG) (hty : t.type = .FLAG)
    (hno : ∀ r ∈ rules, t.content ∉ r.group) :
    getFlagSetup rules (pre ++ t :: post) fuel = none := by
  have hwalk : ∀ (f it : Nat), it ≤ pre.length →
      setupLoop rules (pre ++ t :: post).length f
        { tokens := pre ++ t :: post, token_it := it, set := ({ map := [] } : FlagSet N V) }
        = none := by
    intro f
    induction f with
    | zero => intro it _; rfl
    | succ f ih =>
      intro it hit
      have hlen : it < (pre ++ t :: post).length := by
        simp only [List.length_append, List.length_cons]; omega
      by_cases hlast : it = pre.length
      · subst hlast
        exact setupLoop_stuck rules _ _ t (by simp)
          (deref_of_getElem? _ _ _
            (by
              show ((pre ++ t :: post) ++ [])[pre.length]? = some t
              rw [List.append_nil, List.getElem?_append_right (Nat.le_refl _)]; simp))
          hty hno (f + 1)
      · have hlt : it < pre.length := by omega
        have hget : ((pre ++ t :: post) ++ [])[it]? = some pre[it] := by
          rw [List.append_nil, List.getElem?_append_left hlt, List.getElem?_eq_getElem hlt]
        have hb := setupBody_skip rules (pre ++ t :: post).length
          { tokens := pre ++ t :: post, token_it := it, set := ({ map := [] } : FlagSet N V) }
          pre[it] (deref_of_getElem? _ _ _ hget) (hpre _ (List.getElem_mem hlt))
        rw [setupLoop_step rules _ f _ _ (by simp; omega) hb]
        exact ih (it + 1) (by omega)
  unfold getFlagSetup
  have he : (pre ++ t :: post).isEmpty = false := by simp
  simp only [he, hwalk fuel 0 (Nat.zero_le _)]
  rfl

theorem getFlagSetup_unknown_flag_witness :
    getFlagSetup exampleRules
      ([⟨['a'], .IDENTIFIER, 1⟩] ++ ⟨['-', 'x'], .FLAG, 4⟩ :: [⟨['b'], .IDENTIFIER, 6⟩]) 100
      = none :=
  getFlagSetup_unknown_flag exampleRules [⟨['a'], .IDENTIFIER, 1⟩] ⟨['-', 'x'], .FLAG, 4⟩
    [⟨['b'], .IDENTIFIER, 6⟩] 100 (by decide) rfl (by decide)

/-! ## C21: does the resolver terminate? -/

/-- C21, on the code. An iteration of the scanning loop on a `FLAG` token whose
content is in no rule's group neither moves past the token nor removes it: it
leaves the vector, `token_it` and the set exactly as they were.  From such a
state the loop is still running after any number of iterations, so no bound in
the length of the sequence holds. -/
theorem setupLoop_no_progress {N V : Type} [DecidableEq N] (rules : List (FlagRule N V))
    (end_it : Nat) (s : SetupState N V) (t : Token) (hne : s.token_it ≠ end_it)
    (ht : s.tokens[s.token_it]? = some t) (hty : t.type = .FLAG)
    (hno : ∀ r ∈ rules, t.content ∉ r.group) :
    (∃ s', setupBody rules end_it s = .ok s' ∧ s'.tokens = s.tokens ∧
      s'.token_it = s.token_it ∧ s'.set.map = s.set.map) ∧
    ∀ fuel, setupLoop rules end_it fuel s = none := by
  have hlt : s.token_it < s.tokens.length := (List.getElem?_eq_some.mp ht).1
  have hd : deref (s.tokens ++ s.stale) s.token_it = .ok t :=
    deref_of_getElem? _ _ _ (by rw [List.getElem?_append_left hlt]; exact ht)
  exact ⟨⟨s, setupBody_unknown_flag rules end_it s t hd hty hno, rfl, rfl, rfl⟩,
    setupLoop_stuck rules end_it s t hne hd hty hno⟩

theorem setupLoop_no_progress_witness :
    (∃ s', setupBody exampleRules 1 ({ tokens := ([⟨['-', 'x'], .FLAG, 2⟩] : List Token), token_it := 0, set := { map := [] } } : SetupState ConfigName ConfigValue) = .ok s' ∧
      s'.tokens = ({ tokens := ([⟨['-', 'x'], .FLAG, 2⟩] : List Token), token_it := 0, set := { map := [] } } : SetupState ConfigName ConfigValue).tokens ∧
      s'.token_it = ({ tokens := ([⟨['-', 'x'], .FLAG, 2⟩] : List Token), token_it := 0, set := { map := [] } } : SetupState ConfigName ConfigValue).token_it ∧
      s'.set.map = ({ tokens := ([⟨['-', 'x'], .FLAG, 2⟩] : List Token), token_it := 0, set := { map := [] } } : SetupState ConfigName ConfigValue).set.map) ∧
    ∀ fuel, setupLoop exampleRules 1 fuel ({ tokens := ([⟨['-', 'x'], .FLAG, 2⟩] : List Token), token_it := 0, set := { map := [] } } : SetupState ConfigName ConfigValue) = none :=
  setupLoop_no_progress exampleRules 1 ({ tokens := ([⟨['-', 'x'], .FLAG, 2⟩] : List Token), token_it := 0, set := { map := [] } } : SetupState ConfigName ConfigValue) ⟨['-', 'x'], .FLAG, 2⟩ (by decide) rfl rfl (by decide)

/-! ## C22: `FlagSet::setFlag` -/

/-- C22. `setFlag flag name` throws exactly when `name` is already a key of
the map.  Otherwise the new map sends `name` to `flag` and every other key to
what it was sent before, and its keys are distinct if they were.  A call that
throws yields no new set (the set is the one before the call), so a second
assignment to `name` throws and the first one is kept. -/
theorem setFlag_spec {N V : Type} [DecidableEq N] (self : FlagSet N V) (flag : Flag V)
    (name : N) :
    ((self.map.lookup name).isSome = true →
      self.setFlag flag name = .error (.thrown multipleFlagsMsg)) ∧
    ((self.map.lookup name).isSome = false →
      ∃ set, self.setFlag flag name = .ok set ∧
        set.map.lookup name = some flag ∧
        (∀ k, k ≠ name → set.map.lookup k = self.map.lookup k) ∧
        ((self.map.map Prod.fst).Nodup → (set.map.map Prod.fst).Nodup) ∧
        ∀ flag2, set.setFlag flag2 name = .error (.thrown multipleFlagsMsg)) := by
  constructor
  · intro h
    simp [FlagSet.setFlag, h]
  · intro h
    have hnone : self.map.lookup name = none := by
      cases hl : self.map.lookup name with
      | none => rfl
      | some v => rw [hl] at h; cases h
    have hnew : ({ map := self.map ++ [(name, flag)] } : FlagSet N V).map.lookup name
        = some flag := by
      simp [List.lookup_append, hnone]
    refine ⟨{ map := self.map ++ [(name, flag)] }, by simp [FlagSet.setFlag, h], hnew,
      fun k hk => ?_, fun hnd => ?_, fun flag2 => ?_⟩
    · have hkn : (k == name) = false := by simpa using hk
      simp [List.lookup_append, List.lookup_cons, hkn]
    · have hnotin : name ∉ self.map.map Prod.fst := by
        intro hmem
        obtain ⟨⟨k, v⟩, hkv, hk⟩ := List.mem_map.mp hmem
        simp only at hk
        subst hk
        have := List.lookup_eq_none_iff.mp hnone (k, v) hkv
        simp at this
      simp only [List.map_append, List.map_cons, List.map_nil]
      rw [List.nodup_append]
      refine ⟨hnd, List.nodup_singleton _, ?_⟩
      intro a ha hb
      rw [List.mem_singleton] at hb
      subst hb
      exact hnotin ha
    · simp [FlagSet.setFlag, hnew]

theorem setFlag_spec_witness :
    ((({ map := [] } : FlagSet ConfigName ConfigValue).map.lookup ConfigName.SIZE).isSome = true →
      ({ map := [] } : FlagSet ConfigName ConfigValue).setFlag ⟨ConfigValue.SHORT, .string []⟩ ConfigName.SIZE
        = .error (.thrown multipleFlagsMsg)) ∧
    ((({ map := [] } : FlagSet ConfigName ConfigValue).map.lookup ConfigName.SIZE).isSome = false →
      ∃ set, ({ map := [] } : FlagSet ConfigName ConfigValue).setFlag ⟨ConfigValue.SHORT, .string []⟩ ConfigName.SIZE = .ok set ∧
        set.map.lookup ConfigName.SIZE = some ⟨ConfigValue.SHORT, .string []⟩ ∧
        (∀ k, k ≠ ConfigName.SIZE → set.map.lookup k = ({ map := [] } : FlagSet ConfigName ConfigValue).map.lookup k) ∧
        ((({ map := [] } : FlagSet ConfigName ConfigValue).map.map Prod.fst).Nodup → (set.map.map Prod.fst).Nodup) ∧
        ∀ flag2, set.setFlag flag2 ConfigName.SIZE = .error (.thrown multipleFlagsMsg)) :=
  setFlag_spec ({ map := [] } : FlagSet ConfigName ConfigValue) ⟨ConfigValue.SHORT, .string []⟩ ConfigName.SIZE

/-! ## C26: the boolean held by `needs_argument` -/

/-- C26. When `needs_argument` holds a value, `getFlagArgument` does not look
at it: for every rule, token vector, position and end, the result with
`needs_argument = false` is the result with `needs_argument = true`. -/
theorem getFlagArgument_ignores_value {N V : Type} (rule : FlagRule N V)
    (tokens : List Token) (it end_it : Nat) :
    getFlagArgument { rule with needs_argument := some false } tokens it end_it
      = getFlagArgument { rule with needs_argument := some true } tokens it end_it := by
  unfold getFlagArgument
  rfl

end TokenizerCli
